import Mathlib

/-!
# Nyxstone `ObjectWriterWrapper`: a shallow embedding

The development follows `src/ObjectWriterWrapper.cpp`: the alignment utility `alignUp`,
the fixup validators `validate_arm_thumb`, `validate_aarch64` and `validate_fixups`, the
relocation hook `recordRelocation`, and the fragment walk of `writeObject` that copies the
final bytes of every instruction out of the laid-out `.text` section.

Conventions.
* `uint64_t` and `size_t` values are natural numbers; where the source can wrap, the
  arithmetic is reduced `% 2 ^ 64` explicitly.
* `int64_t` values are integers; `toInt64` is the conversion `static_cast<int64_t>` and
  `wrapInt64` the two's complement reduction of an arithmetic result.
* The LLVM objects the source only reads (expressions, fixups, fragments, sections, the
  layout, the target triple) are records holding exactly the observations the source makes.
* `context.reportError` is the list of diagnostics a function reports, in order.
* A failing `cast<>` assertion and a `std::out_of_range` thrown by `vector::at`
  are explicit outcomes (`none`, or the flag `thrown`).
* Lengths of vectors and positions inside them are natural numbers: the buffers are in
  memory, so sums such as `frag_pos + insn_len` stay far below `2 ^ 64`.
-/

namespace Nyxstone

/-! ## Data model -/

/-- One byte of section content or of an instruction encoding. -/
abbrev Byte := UInt8

/-- The fixup kinds returned by `MCFixup::getTargetKind` that the source names: the
enumerators of `ARM::Fixups` and of `AArch64::Fixups` it compares against; every other kind of
either enumeration is `other n`. -/
inductive FixupKind where
  | fixup_thumb_adr_pcrel_10
  | fixup_arm_thumb_cp
  | fixup_t2_adr_pcrel_12
  | fixup_arm_thumb_br
  | fixup_arm_thumb_bl
  | fixup_arm_thumb_bcc
  | fixup_t2_uncondbranch
  | fixup_t2_condbranch
  | fixup_t2_pcrel_10
  | fixup_aarch64_pcrel_adr_imm21
  | fixup_aarch64_pcrel_adrp_imm21
  | other (n : Nat)
  deriving DecidableEq

/-- The observations made on an `MCSymbol`: the fragment it is defined in (`getFragment`, an
identifier of the fragment) and its offset in that fragment (`getOffset`, a `uint64_t`). -/
structure MCSymbol where
  fragment : Nat
  offset : Nat
  deriving DecidableEq

/-- An `MCExpr`, by `MCExpr::ExprKind`. A `Target` expression is the target specific wrapper
(`AArch64MCExpr` on AArch64); its `getSubExpr` may be a null pointer. -/
inductive MCExpr where
  | Binary (lhs rhs : MCExpr)
  | Constant (value : Int)
  | SymbolRef (symbol : MCSymbol)
  | Unary (sub : MCExpr)
  | Target (sub : Option MCExpr)

/-- A source location (`SMLoc`). -/
abbrev SMLoc := Nat

/-- The observations made on an `MCFixup`: its target kind, its expression (`getValue`, which
may be a null pointer) and its location. -/
structure MCFixup where
  kind : FixupKind
  value : Option MCExpr
  loc : SMLoc

/-- An `MCFragment`, by `getKind`: `FT_Data` and `FT_Relaxable` carry contents and fixups,
every other fragment kind is `Other` with the number of its kind. -/
inductive MCFragment where
  | Data (contents : List Byte) (fixups : List MCFixup)
  | Relaxable (contents : List Byte) (fixups : List MCFixup)
  | Other (kind : Nat)

/-- An `MCSection`: its name and its fragments in emission order. -/
structure MCSection where
  name : String
  fragments : List MCFragment

/-- The observations made on the `MCAsmLayout`: the section order and the offset of a fragment
in its section (`getFragmentOffset`, a `uint64_t`). -/
structure MCAsmLayout where
  sectionOrder : List MCSection
  getFragmentOffset : Nat → Nat

/-- The observations made on the target triple of the context: whether the target is ARM
Thumb (the helper `is_ArmT16_or_ArmT32` of the library, taken as given) and whether it is
AArch64 (`Triple::isAArch64`). -/
structure Triple where
  is_ArmT16_or_ArmT32 : Bool
  isAArch64 : Bool
  deriving DecidableEq

/-- One call of `context.reportError(loc, message)`. -/
structure Diagnostic where
  loc : SMLoc
  message : String
  deriving DecidableEq

/-- Modelled from the spec: the record `Nyxstone::Instruction` of `nyxstone.h`, a byte sequence
plus caller visible metadata (address and assembly text) that the object writer never
touches. -/
structure Instruction where
  address : Nat
  assembly : String
  bytes : List Byte
  deriving DecidableEq

/-! ## Machine integers -/

/-- The conversion `static_cast<int64_t>` of a `uint64_t`. -/
def toInt64 (u : Nat) : Int :=
  if u % 2 ^ 64 < 2 ^ 63 then ((u % 2 ^ 64 : Nat) : Int) else ((u % 2 ^ 64 : Nat) : Int) - 2 ^ 64

/-- Reduction of an integer result to the range of `int64_t` (two's complement). -/
def wrapInt64 (x : Int) : Int :=
  (x + 2 ^ 63) % 2 ^ 64 - 2 ^ 63

/-! ## Alignment utility -/

/-- The function `alignUp` (lines 39 to 42). `alignment = 0` is a division by zero in the
source; every statement about `alignUp` below has `alignment > 0`. -/
def alignUp (value alignment : Nat) : Nat :=
  let remainder := value % alignment
  if remainder > 0 then (value + (alignment - remainder)) % 2 ^ 64 else value

/-! ## Fixup validation -/

/-- The function `validate_arm_thumb` (lines 44 to 107): the errors it reports, in order. -/
def validate_arm_thumb (fixup : MCFixup) (Layout : MCAsmLayout) : List Diagnostic :=
  match fixup.value with
  | some (MCExpr.SymbolRef symbol) =>
    (if fixup.kind = FixupKind.fixup_thumb_adr_pcrel_10 ∨ fixup.kind = FixupKind.fixup_arm_thumb_cp then
      let address := (Layout.getFragmentOffset symbol.fragment + symbol.offset) % 2 ^ 64
      if address &&& 3 ≠ 0 then
        [⟨fixup.loc, "misaligned label address (reported by nyxstone)"⟩]
      else []
    else [])
    ++
    (if fixup.kind = FixupKind.fixup_t2_adr_pcrel_12 then
      let offset := wrapInt64 (toInt64 symbol.offset - 4)
      if offset ≤ -4096 ∨ offset ≥ 4096 then
        [⟨fixup.loc, "out of range pc-relative fixup value (reported by Nyxstone)"⟩]
      else []
    else [])
    ++
    (if fixup.kind = FixupKind.fixup_arm_thumb_br ∨ fixup.kind = FixupKind.fixup_arm_thumb_bl
        ∨ fixup.kind = FixupKind.fixup_arm_thumb_bcc ∨ fixup.kind = FixupKind.fixup_t2_uncondbranch
        ∨ fixup.kind = FixupKind.fixup_t2_condbranch then
      let address := (Layout.getFragmentOffset symbol.fragment + symbol.offset) % 2 ^ 64
      if address &&& 1 ≠ 0 then
        [⟨fixup.loc, "misaligned label address (reported by nyxstone)"⟩]
      else []
    else [])
    ++
    (if fixup.kind = FixupKind.fixup_t2_pcrel_10 then
      let address := (Layout.getFragmentOffset symbol.fragment + symbol.offset) % 2 ^ 64
      let offset := wrapInt64 (toInt64 symbol.offset - 4)
      (if offset < -1020 ∨ offset > 1020 then
        [⟨fixup.loc, "out of range pc-relative fixup value (reported by Nyxstone)"⟩]
      else [])
      ++
      (if address &&& 3 ≠ 0 then
        [⟨fixup.loc, "misaligned label address (reported by Nyxstone)"⟩]
      else [])
    else [])
  | _ => []

/-- The function `validate_aarch64` (lines 109 to 124): the errors it reports, in order. -/
def validate_aarch64 (triple : Triple) (fixup : MCFixup) (_Layout : MCAsmLayout) :
    List Diagnostic :=
  if triple.isAArch64 ∧ fixup.kind = FixupKind.fixup_aarch64_pcrel_adr_imm21 then
    match fixup.value with
    | some (MCExpr.Target (some (MCExpr.SymbolRef symbol))) =>
      let offset := toInt64 symbol.offset
      if offset < -0x100000 ∨ offset ≥ 0x100000 then
        [⟨fixup.loc, "fixup value out of range (reported by Nyxstone)"⟩]
      else []
    | _ => []
  else []

/-- The body of the loop over the fixups of a fragment (lines 146 to 156). -/
def validate_fixup (triple : Triple) (fixup : MCFixup) (Layout : MCAsmLayout) :
    List Diagnostic :=
  (if triple.is_ArmT16_or_ArmT32 then validate_arm_thumb fixup Layout else [])
  ++ (if triple.isAArch64 then validate_aarch64 triple fixup Layout else [])

/-- The loop over the fixups of a fragment (lines 146 to 156). -/
def validate_fixup_list (triple : Triple) (Layout : MCAsmLayout) : List MCFixup → List Diagnostic
  | [] => []
  | fixup :: rest => validate_fixup triple fixup Layout ++ validate_fixup_list triple Layout rest

/-- The method `ObjectWriterWrapper::validate_fixups` (lines 129 to 157): the errors it
reports, in order. -/
def validate_fixups (triple : Triple) (fragment : MCFragment) (Layout : MCAsmLayout) :
    List Diagnostic :=
  match fragment with
  | MCFragment.Data _ fixups => validate_fixup_list triple Layout fixups
  | MCFragment.Relaxable _ fixups => validate_fixup_list triple Layout fixups
  | MCFragment.Other _ => []

/-! ## Relocation hook -/

/-- The flag `MCFixupKindInfo::FKF_IsPCRel`, `1 << 0`. -/
def FKF_IsPCRel : Nat := 1

/-- The conversion `cast<AArch64MCExpr>(Fixup.getValue())` followed by `getSubExpr()`: the
assertion of `cast` fails (`none`) on a null pointer and on an expression that is not a
`Target` expression. -/
def cast_AArch64MCExpr : Option MCExpr → Option (Option MCExpr)
  | some (MCExpr.Target sub) => some sub
  | _ => none

/-- The conversion `cast<MCSymbolRefExpr>(e)` followed by `getSymbol()`: the assertion of
`cast` fails (`none`) on a null pointer and on an expression that is not a `SymbolRef`. -/
def cast_MCSymbolRefExpr : Option MCExpr → Option MCSymbol
  | some (MCExpr.SymbolRef symbol) => some symbol
  | _ => none

/-- The constant `PAGE_SIZE` of `recordRelocation`. -/
def PAGE_SIZE : Nat := 0x1000

/-- The method `ObjectWriterWrapper::recordRelocation` (lines 163 to 189). `innerFixedValue`
is the value the wrapped writer has left in `FixedValue` (line 170), `fixupKindFlags` the
`Flags` of `Asm.getBackend().getFixupKindInfo`. The result is the final `FixedValue`, or
`none` when an assertion of `cast` fails. -/
def recordRelocation (triple : Triple) (fixupKindFlags : FixupKind → Nat) (Fixup : MCFixup)
    (innerFixedValue : Nat) : Option Nat :=
  if triple.isAArch64 then
    let IsPCRel := fixupKindFlags Fixup.kind &&& FKF_IsPCRel
    let kind := Fixup.kind
    if IsPCRel ≠ 0 ∧ kind = FixupKind.fixup_aarch64_pcrel_adrp_imm21 then
      match cast_AArch64MCExpr Fixup.value with
      | none => none
      | some sub =>
        match cast_MCSymbolRefExpr sub with
        | none => none
        | some symbol => some (alignUp symbol.offset PAGE_SIZE)
    else some innerFixedValue
  else some innerFixedValue

/-! ## Instruction byte extraction and `writeObject` -/

/-- The state of the extraction inside `writeObject`: the caller's instruction list, the
cursor `curr_insn`, and whether `instructions->at(curr_insn)` has thrown `std::out_of_range`
(the exception leaves `writeObject`; the list keeps the bytes written so far). -/
structure Extraction where
  instructions : List Instruction
  curr_insn : Nat
  thrown : Bool
  deriving DecidableEq

/-- The loop `while (true)` over a data fragment (lines 222 to 248), entered at cursor
`curr_insn` and position `frag_pos` of the fragment contents. Every turn that goes round
again advances `curr_insn` below `instructions.size()`, so the loop makes at most
`instructions.size()` turns: the first argument counts the turns that may still follow, and
`dataLoop_eq_consume` shows that `instructions.length` of them are always enough. -/
def dataLoop (contents : List Byte) : Nat → List Instruction → Nat → Nat → Extraction
  | turns, instructions, curr_insn, frag_pos =>
    match instructions[curr_insn]? with
    | none => ⟨instructions, curr_insn, true⟩
    | some insn =>
      let insn_len := insn.bytes.length
      if frag_pos + insn_len > contents.length then
        ⟨instructions, curr_insn, false⟩
      else
        let instructions := instructions.set curr_insn
          { insn with bytes := (contents.drop frag_pos).take insn_len }
        if curr_insn + 1 ≥ instructions.length then
          ⟨instructions, curr_insn + 1, false⟩
        else
          match turns with
          | 0 => ⟨instructions, curr_insn + 1, false⟩
          | turns + 1 => dataLoop contents turns instructions (curr_insn + 1) (frag_pos + insn_len)

/-- The extraction step of the fragment loop for one fragment (lines 216 to 262). -/
def extractFragment (fragment : MCFragment) (instructions : List Instruction) (curr_insn : Nat) :
    Extraction :=
  match fragment with
  | MCFragment.Data contents _ => dataLoop contents instructions.length instructions curr_insn 0
  | MCFragment.Relaxable contents _ =>
    match instructions[curr_insn]? with
    | none => ⟨instructions, curr_insn, true⟩
    | some insn => ⟨instructions.set curr_insn { insn with bytes := contents }, curr_insn + 1, false⟩
  | MCFragment.Other _ => ⟨instructions, curr_insn, false⟩

/-- The outcome of the fragment loop: the errors reported, the instruction list (absent when
the caller supplied none), the cursor, and whether `std::out_of_range` was thrown. -/
structure Walk where
  errors : List Diagnostic
  instructions : Option (List Instruction)
  curr_insn : Nat
  thrown : Bool
  deriving DecidableEq

/-- The loop over the fragments of the `.text` section (lines 206 to 268). -/
def fragmentLoop (triple : Triple) (Layout : MCAsmLayout) :
    List MCFragment → Option (List Instruction) → Nat → Walk
  | [], instructions, curr_insn => ⟨[], instructions, curr_insn, false⟩
  | fragment :: rest, none, curr_insn =>
    let w := fragmentLoop triple Layout rest none curr_insn
    { w with errors := validate_fixups triple fragment Layout ++ w.errors }
  | fragment :: rest, some instructions, curr_insn =>
    let errors := validate_fixups triple fragment Layout
    let e := extractFragment fragment instructions curr_insn
    if e.thrown then
      ⟨errors, some e.instructions, e.curr_insn, true⟩
    else if e.curr_insn ≥ e.instructions.length then
      ⟨errors, some e.instructions, e.curr_insn, false⟩
    else
      let w := fragmentLoop triple Layout rest (some e.instructions) e.curr_insn
      { w with errors := errors ++ w.errors }

/-- The observation made on the wrapped object writer by `writeObject`: the bytes its own
`writeObject` emits and the count it returns. -/
structure MCObjectWriter where
  writeObjectBytes : List Byte
  writeObjectResult : Nat

/-- The observation made on the `MCAssembler` by `writeObject`: the bytes `writeSectionData`
emits for a section. -/
structure MCAssembler where
  writeSectionData : MCSection → List Byte

/-- The members of `ObjectWriterWrapper` together with the state they refer to: the wrapped
writer, the output stream (the bytes written so far), the target triple and the reported
errors of the context, the output mode, the extended error text and the caller's instruction
list (`none` for a null pointer). -/
structure ObjectWriterWrapper where
  inner_object_writer : MCObjectWriter
  stream : List Byte
  triple : Triple
  errors : List Diagnostic
  write_text_section_only : Bool
  extended_error : String
  instructions : Option (List Instruction)

/-- The method `ObjectWriterWrapper::writeObject` (lines 191 to 280): the returned count
(`none` when `std::out_of_range` leaves the method) and the state afterwards. -/
def writeObject (self : ObjectWriterWrapper) (Asm : MCAssembler) (Layout : MCAsmLayout) :
    Option Nat × ObjectWriterWrapper :=
  match Layout.sectionOrder.find? (fun sec => sec.name == ".text") with
  | none =>
    (some 0, { self with
      extended_error := self.extended_error ++ "[writeObject] Object has no .text section." })
  | some text_section =>
    let w := fragmentLoop self.triple Layout text_section.fragments self.instructions 0
    let self := { self with errors := self.errors ++ w.errors, instructions := w.instructions }
    if w.thrown then
      (none, self)
    else if self.write_text_section_only then
      let start := self.stream.length
      let stream := self.stream ++ Asm.writeSectionData text_section
      (some (stream.length - start), { self with stream := stream })
    else
      (some self.inner_object_writer.writeObjectResult,
        { self with stream := self.stream ++ self.inner_object_writer.writeObjectBytes })

/-! ## Definitions used to state the properties -/

/-- The run of the data loop seen from the cursor: given the position in the fragment
contents and the instructions from the cursor on, the instructions the loop fills (with their
new bytes) and the instructions it leaves. `dataLoop_eq_consume` relates it to `dataLoop`. -/
def consume (contents : List Byte) : Nat → List Instruction → List Instruction × List Instruction
  | _, [] => ([], [])
  | frag_pos, insn :: rest =>
    if frag_pos + insn.bytes.length > contents.length then ([], insn :: rest)
    else
      let r := consume contents (frag_pos + insn.bytes.length) rest
      ({ insn with bytes := (contents.drop frag_pos).take insn.bytes.length } :: r.1, r.2)

/-- The sum of the stored byte lengths of a list of instructions. -/
def storedLength : List Instruction → Nat
  | [] => 0
  | insn :: rest => insn.bytes.length + storedLength rest

/-- The instructions of a list, each holding its own slice of `contents`: the first one the
bytes from `pos` on, as many as its stored length, the next one the bytes that follow. -/
def sliceInstructions (contents : List Byte) : Nat → List Instruction → List Instruction
  | _, [] => []
  | pos, insn :: rest =>
    { insn with bytes := (contents.drop pos).take insn.bytes.length }
      :: sliceInstructions contents (pos + insn.bytes.length) rest

/-- The bytes of all instructions of a list, concatenated in list order. -/
def instructionBytes : List Instruction → List Byte
  | [] => []
  | insn :: rest => insn.bytes ++ instructionBytes rest

/-- The contents of the data and relaxable fragments of a fragment list, concatenated in
emission order. -/
def codeBytes : List MCFragment → List Byte
  | [] => []
  | MCFragment.Data contents _ :: rest => contents ++ codeBytes rest
  | MCFragment.Relaxable contents _ :: rest => contents ++ codeBytes rest
  | MCFragment.Other _ :: rest => codeBytes rest

/-- The instruction list splits into the consecutive groups `groups`, one group per data or
relaxable fragment in emission order: the stored lengths of the group of a data fragment sum to
the length of the fragment contents, the group of a relaxable fragment is one instruction. -/
def GroupsMatch : List MCFragment → List (List Instruction) → Prop
  | [], [] => True
  | MCFragment.Other _ :: rest, groups => GroupsMatch rest groups
  | MCFragment.Data contents _ :: rest, group :: groups =>
    storedLength group = contents.length ∧ GroupsMatch rest groups
  | MCFragment.Relaxable _ _ :: rest, group :: groups =>
    group.length = 1 ∧ GroupsMatch rest groups
  | _, _ => False

/-- The instructions after a correct extraction: every instruction of the group of a data
fragment holds its slice of the fragment contents, the instruction of a relaxable fragment
holds the whole fragment contents; order and metadata are those of the groups. -/
def slicedGroups : List MCFragment → List (List Instruction) → List Instruction
  | MCFragment.Other _ :: rest, groups => slicedGroups rest groups
  | MCFragment.Data contents _ :: rest, group :: groups =>
    sliceInstructions contents 0 group ++ slicedGroups rest groups
  | MCFragment.Relaxable contents _ :: rest, group :: groups =>
    group.map (fun insn => { insn with bytes := contents }) ++ slicedGroups rest groups
  | _, _ => []

/-- The bytes of `bytes` at the positions `[first, last)`. -/
def byteRange (bytes : List Byte) (first last : Nat) : List Byte :=
  (bytes.drop first).take (last - first)

/-- The errors of validating every fragment of a fragment list, in emission order. -/
def validateFragments (triple : Triple) (Layout : MCAsmLayout) :
    List MCFragment → List Diagnostic
  | [] => []
  | fragment :: rest =>
    validate_fixups triple fragment Layout ++ validateFragments triple Layout rest

/-- Instruction `after` is instruction `before` with the same address and assembly text and
with bytes of the same length. -/
def SameShape (before after : Instruction) : Prop :=
  after.address = before.address ∧ after.assembly = before.assembly
    ∧ after.bytes.length = before.bytes.length

/-- Instruction `after` is instruction `before` as the extraction over the fragments `frags`
may leave it: same address and assembly text, and bytes of the same length unless they are
the contents of a relaxable fragment of `frags`. -/
def FilledFrom (frags : List MCFragment) (before after : Instruction) : Prop :=
  after.address = before.address ∧ after.assembly = before.assembly
    ∧ (after.bytes.length = before.bytes.length
      ∨ ∃ contents fixups, MCFragment.Relaxable contents fixups ∈ frags ∧ after.bytes = contents)

/-! ## Example inputs -/

/-- A layout whose section order is one `.text` section with the given fragments; every
fragment starts at offset `0x1000`. -/
def sampleLayout (fragments : List MCFragment) : MCAsmLayout :=
  ⟨[⟨".text", fragments⟩], fun _ => 0x1000⟩

/-- A wrapper for a Thumb target that writes the `.text` section only, with an empty stream,
no reported error, an empty extended error text and the given instruction list. -/
def sampleWriter (instructions : Option (List Instruction)) : ObjectWriterWrapper :=
  ⟨⟨[], 0⟩, [], ⟨true, false⟩, [], true, "", instructions⟩

/-- An assembler whose `writeSectionData` emits the contents of the data and relaxable
fragments of the section. -/
def sampleAssembler : MCAssembler :=
  ⟨fun sec => codeBytes sec.fragments⟩

/-- Three instructions with two byte placeholders. -/
def sampleInstructions : List (List Instruction) :=
  [[⟨0x1000, "nop", [0, 0]⟩, ⟨0x1002, "movs r0, r1", [0, 0]⟩], [⟨0x1004, "b.w far", [0, 0]⟩]]

/-- A data fragment of two instructions, an alignment fragment, and a relaxable fragment whose
branch has grown from two to four bytes. -/
def sampleFragments : List MCFragment :=
  [MCFragment.Data [0x00, 0xbf, 0x01, 0x20] [], MCFragment.Other 0,
    MCFragment.Relaxable [0x00, 0xf0, 0x00, 0xb8] []]

/-- A fixup of the given kind at location `7` that refers to a symbol at the given offset of
fragment `0`. -/
def sampleSymbolFixup (kind : FixupKind) (offset : Nat) : MCFixup :=
  ⟨kind, some (MCExpr.SymbolRef ⟨0, offset⟩), 7⟩

/-- A fixup of the given kind at location `7` whose expression is the target wrapper around a
reference to a symbol at the given offset of fragment `0`. -/
def sampleWrappedFixup (kind : FixupKind) (offset : Nat) : MCFixup :=
  ⟨kind, some (MCExpr.Target (some (MCExpr.SymbolRef ⟨0, offset⟩))), 7⟩

/-- A data fragment whose fixup is a short address load of a label at the misaligned address
`0x1000 + 2`, an alignment fragment, and a relaxable fragment whose fixup is a conditional
branch to the odd address `0x1000 + 3`. -/
def sampleFailingFragments : List MCFragment :=
  [MCFragment.Data [0x00, 0xa0] [sampleSymbolFixup FixupKind.fixup_thumb_adr_pcrel_10 2],
    MCFragment.Other 0,
    MCFragment.Relaxable [0x00, 0xd1] [sampleSymbolFixup FixupKind.fixup_arm_thumb_bcc 3]]

/-- The fragments of `nop`, a data word and `bne label`: a data fragment with the two bytes
of `nop` followed by the four bytes of the word, and a relaxable fragment whose fixup is the
conditional branch to the odd address `0x1000 + 3`. -/
def sampleInlineDataFragments : List MCFragment :=
  [MCFragment.Data [0x00, 0xbf, 0xef, 0xbe, 0xad, 0xde] [],
    MCFragment.Relaxable [0x00, 0xd1] [sampleSymbolFixup FixupKind.fixup_arm_thumb_bcc 3]]

/-- The instruction list of `nop` and `bne label`, two bytes each. -/
def sampleInlineDataInstructions : List Instruction :=
  [⟨0x1000, "nop", [0x00, 0xbf]⟩, ⟨0x1006, "bne label", [0x00, 0xd1]⟩]

/-! ## Lemmas: alignment -/

theorem alignUp_of_dvd (v a : Nat) (h : a ∣ v) : alignUp v a = v := by
  unfold alignUp
  have : v % a = 0 := Nat.mod_eq_zero_of_dvd h
  simp [this]

theorem add_sub_mod_eq (v a : Nat) (ha : 0 < a) : v + (a - v % a) = a * (v / a + 1) := by
  have h1 : v % a < a := Nat.mod_lt v ha
  have h2 : a * (v / a) + v % a = v := Nat.div_add_mod v a
  have h3 : a * (v / a + 1) = a * (v / a) + a := by ring
  omega

theorem alignUp_of_not_dvd (v a : Nat) (ha : 0 < a) (h : ¬ a ∣ v) :
    alignUp v a = (a * (v / a + 1)) % 2 ^ 64 := by
  unfold alignUp
  have hr : v % a ≠ 0 := fun h0 => h (Nat.dvd_of_mod_eq_zero h0)
  have hpos : v % a > 0 := Nat.pos_of_ne_zero hr
  simp only [hpos, if_true]
  rw [add_sub_mod_eq v a ha]

theorem next_multiple_le (v k : Nat) (hv : v < 2 ^ 64) (hk : k < 64) :
    2 ^ k * (v / 2 ^ k + 1) ≤ 2 ^ 64 := by
  have hsplit : (2 : Nat) ^ 64 = 2 ^ k * 2 ^ (64 - k) := by
    rw [← Nat.pow_add]; congr 1; omega
  rw [hsplit]
  apply Nat.mul_le_mul_left
  have : v / 2 ^ k < 2 ^ (64 - k) := by
    apply Nat.div_lt_of_lt_mul
    rw [← hsplit]; exact hv
  omega

/-- The next multiple of `a` above `v` is the least multiple of `a` strictly above `v`. -/
theorem next_multiple_least (v a : Nat) (ha : 0 < a) :
    a ∣ a * (v / a + 1) ∧ v < a * (v / a + 1) ∧
      ∀ m, a ∣ m → v < m → a * (v / a + 1) ≤ m := by
  refine ⟨Dvd.intro _ rfl, ?_, ?_⟩
  · have h1 : v % a < a := Nat.mod_lt v ha
    have h2 : a * (v / a) + v % a = v := Nat.div_add_mod v a
    have h3 : a * (v / a + 1) = a * (v / a) + a := by ring
    omega
  · rintro m ⟨c, rfl⟩ hlt
    apply Nat.mul_le_mul_left
    have : v / a < c := by
      apply Nat.div_lt_of_lt_mul; exact hlt
    omega

theorem alignUp_P3_of_le (v a : Nat) (hpos : 0 < a) (hle : a * (v / a + 1) ≤ 2 ^ 64) :
    alignUp (alignUp v a) a = alignUp v a ∧ alignUp v a % a = 0 ∧
      (alignUp v a + 2 ^ 64 - v) % 2 ^ 64 < a := by
  by_cases hd : a ∣ v
  · rw [alignUp_of_dvd v _ hd]
    refine ⟨alignUp_of_dvd v _ hd, Nat.mod_eq_zero_of_dvd hd, ?_⟩
    have : v + 2 ^ 64 - v = 2 ^ 64 := by omega
    rw [this, Nat.mod_self]; exact hpos
  · obtain ⟨hdvd, hlt, -⟩ := next_multiple_least v a hpos
    have hrem : v % a < a := Nat.mod_lt v hpos
    have hsum := add_sub_mod_eq v a hpos
    have hr : 0 < v % a := Nat.pos_of_ne_zero (fun h0 => hd (Nat.dvd_of_mod_eq_zero h0))
    have hmle : v % a ≤ v := Nat.mod_le v a
    rw [alignUp_of_not_dvd v _ hpos hd]
    generalize a * (v / a + 1) = m at *
    rcases Nat.lt_or_ge m (2 ^ 64) with hlt64 | hge
    · rw [Nat.mod_eq_of_lt hlt64]
      refine ⟨alignUp_of_dvd _ _ hdvd, Nat.mod_eq_zero_of_dvd hdvd, ?_⟩
      have h1 : m + 2 ^ 64 - v = (a - v % a) + 2 ^ 64 := by omega
      rw [h1, Nat.add_mod_right, Nat.mod_eq_of_lt (by omega)]
      omega
    · have heq : m = 2 ^ 64 := Nat.le_antisymm hle hge
      rw [heq, Nat.mod_self]
      refine ⟨alignUp_of_dvd _ _ (dvd_zero _), Nat.zero_mod _, ?_⟩
      have h1 : 0 + 2 ^ 64 - v = a - v % a := by omega
      rw [h1, Nat.mod_eq_of_lt (by omega)]
      omega

/-! ## Lemmas: machine integers -/

theorem and_three_eq_mod (x : Nat) : x &&& 3 = x % 4 :=
  Nat.and_pow_two_sub_one_eq_mod x 2

theorem mod64_mod_four (x : Nat) : x % 2 ^ 64 % 4 = x % 4 :=
  Nat.mod_mod_of_dvd x (by decide)

theorem mod64_mod_two (x : Nat) : x % 2 ^ 64 % 2 = x % 2 :=
  Nat.mod_mod_of_dvd x (by decide)

theorem mod64_lit_mod_four (x : Nat) : x % 18446744073709551616 % 4 = x % 4 :=
  Nat.mod_mod_of_dvd x (by decide)

theorem mod64_lit_mod_two (x : Nat) : x % 18446744073709551616 % 2 = x % 2 :=
  Nat.mod_mod_of_dvd x (by decide)

theorem toInt64_range (u : Nat) : -2 ^ 63 ≤ toInt64 u ∧ toInt64 u < 2 ^ 63 := by
  unfold toInt64
  have h : u % 2 ^ 64 < 2 ^ 64 := Nat.mod_lt u (by decide)
  split <;> omega

theorem wrapInt64_of_range (x : Int) (h1 : -2 ^ 63 ≤ x) (h2 : x < 2 ^ 63) : wrapInt64 x = x := by
  unfold wrapInt64
  omega

theorem wrapInt64_sub_four (x : Int) (h1 : -2 ^ 63 ≤ x) (h2 : x < 2 ^ 63) :
    wrapInt64 (x - 4) = if -2 ^ 63 ≤ x - 4 then x - 4 else x - 4 + 2 ^ 64 := by
  unfold wrapInt64
  split <;> omega

/-! ## Lemmas: the data loop and the fragment loop -/

theorem getElem?_append_length (pre : List Instruction) (x : Instruction) (rest : List Instruction) :
    (pre ++ x :: rest)[pre.length]? = some x := by
  rw [List.getElem?_append_right (Nat.le_refl _)]
  simp

theorem set_append_length (pre : List Instruction) (x y : Instruction) (rest : List Instruction) :
    (pre ++ x :: rest).set pre.length y = pre ++ y :: rest := by
  rw [List.set_append_right _ _ (Nat.le_refl _)]
  simp

theorem dataLoop_eq_consume (contents : List Byte) (rest : List Instruction) :
    ∀ (pre : List Instruction) (turns frag_pos : Nat), rest ≠ [] → rest.length ≤ turns + 1 →
      dataLoop contents turns (pre ++ rest) pre.length frag_pos =
        ⟨pre ++ (consume contents frag_pos rest).1 ++ (consume contents frag_pos rest).2,
          pre.length + (consume contents frag_pos rest).1.length, false⟩ := by
  induction rest with
  | nil => intro pre turns frag_pos h; exact absurd rfl h
  | cons x rest ih =>
    intro pre turns frag_pos _ hlen
    unfold dataLoop
    rw [getElem?_append_length]
    simp only [consume]
    by_cases hfit : frag_pos + x.bytes.length > contents.length
    · simp [hfit]
    · simp only [hfit, if_false, set_append_length]
      cases rest with
      | nil => simp [consume]
      | cons y rest =>
        have hnot : ¬ (pre.length + 1 ≥ (pre ++ { x with bytes := (contents.drop frag_pos).take x.bytes.length } :: y :: rest).length) := by
          simp
        simp only [hnot, if_false]
        cases turns with
        | zero => simp at hlen
        | succ turns =>
          have h := ih (pre ++ [{ x with bytes := (contents.drop frag_pos).take x.bytes.length }]) turns
            (frag_pos + x.bytes.length) (by simp) (by simpa using hlen)
          simp only [List.length_append, List.length_singleton, List.append_assoc,
            List.singleton_append] at h
          simp only [h]
          simp [Nat.add_assoc, Nat.add_comm 1]

theorem sliceInstructions_length (contents : List Byte) (group : List Instruction) :
    ∀ pos, (sliceInstructions contents pos group).length = group.length := by
  induction group with
  | nil => intro pos; rfl
  | cons x group ih => intro pos; simp [sliceInstructions, ih]

theorem consume_group (contents : List Byte) (group rest : List Instruction) :
    ∀ pos, pos + storedLength group ≤ contents.length →
      (∀ y ∈ rest.head?, contents.length < pos + storedLength group + y.bytes.length) →
      consume contents pos (group ++ rest) = (sliceInstructions contents pos group, rest) := by
  induction group with
  | nil =>
    intro pos _ hrest
    cases rest with
    | nil => rfl
    | cons y rest =>
      have h := hrest y (by simp)
      simp only [storedLength, Nat.add_zero] at h
      simp [consume, sliceInstructions, h]
  | cons x group ih =>
    intro pos hfit hrest
    simp only [storedLength] at hfit hrest
    have hx : ¬ (pos + x.bytes.length > contents.length) := by omega
    have h := ih (pos + x.bytes.length) (by omega) (by
      intro y hy
      have := hrest y hy
      omega)
    simp [consume, sliceInstructions, hx, h]

theorem instructionBytes_append (l₁ l₂ : List Instruction) :
    instructionBytes (l₁ ++ l₂) = instructionBytes l₁ ++ instructionBytes l₂ := by
  induction l₁ with
  | nil => rfl
  | cons x l₁ ih => simp [instructionBytes, ih]

theorem instructionBytes_slice (contents : List Byte) (group : List Instruction) :
    ∀ pos, instructionBytes (sliceInstructions contents pos group)
      = (contents.drop pos).take (storedLength group) := by
  induction group with
  | nil => intro pos; simp [sliceInstructions, instructionBytes, storedLength]
  | cons x group ih =>
    intro pos
    simp only [sliceInstructions, instructionBytes, storedLength, ih]
    rw [List.take_add, List.drop_drop]

theorem slicedGroups_bytes (frags : List MCFragment) :
    ∀ groups, GroupsMatch frags groups →
      instructionBytes (slicedGroups frags groups) = codeBytes frags := by
  induction frags with
  | nil =>
    intro groups h
    cases groups <;> simp [slicedGroups, instructionBytes, codeBytes]
  | cons f frags ih =>
    intro groups h
    cases f with
    | Other k =>
      simp only [GroupsMatch] at h
      simp only [slicedGroups, codeBytes]
      exact ih groups h
    | Data contents fixups =>
      cases groups with
      | nil => simp [GroupsMatch] at h
      | cons g groups =>
        simp only [GroupsMatch] at h
        simp only [slicedGroups, codeBytes, instructionBytes_append, instructionBytes_slice,
          ih groups h.2, h.1]
        simp
    | Relaxable contents fixups =>
      cases groups with
      | nil => simp [GroupsMatch] at h
      | cons g groups =>
        simp only [GroupsMatch] at h
        obtain ⟨hg, hrest⟩ := h
        match g, hg with
        | [x], _ =>
          simp [slicedGroups, codeBytes, instructionBytes_append, instructionBytes, ih groups hrest]

theorem slicedGroups_nil (frags : List MCFragment) :
    ∀ groups, GroupsMatch frags groups → groups.flatten = [] → slicedGroups frags groups = [] := by
  induction frags with
  | nil => intro groups _ _; cases groups <;> rfl
  | cons f frags ih =>
    intro groups h hnil
    cases f with
    | Other k =>
      simp only [GroupsMatch] at h
      simp only [slicedGroups]
      exact ih groups h hnil
    | Data contents fixups =>
      cases groups with
      | nil => rfl
      | cons g groups =>
        simp only [GroupsMatch] at h
        simp only [List.flatten_cons, List.append_eq_nil] at hnil
        simp [slicedGroups, hnil.1, sliceInstructions, ih groups h.2 hnil.2]
    | Relaxable contents fixups =>
      cases groups with
      | nil => rfl
      | cons g groups =>
        simp only [GroupsMatch] at h
        simp only [List.flatten_cons, List.append_eq_nil] at hnil
        have := h.1
        simp [hnil.1] at this

theorem extractFragment_data (contents : List Byte) (fixups : List MCFixup)
    (pre rest : List Instruction) (hrest : rest ≠ []) :
    extractFragment (MCFragment.Data contents fixups) (pre ++ rest) pre.length =
      ⟨pre ++ (consume contents 0 rest).1 ++ (consume contents 0 rest).2,
        pre.length + (consume contents 0 rest).1.length, false⟩ := by
  unfold extractFragment
  exact dataLoop_eq_consume contents rest pre _ 0 hrest (by simp; omega)

theorem fragmentLoop_nil_instructions (triple : Triple) (Layout : MCAsmLayout)
    (frags : List MCFragment) :
    (fragmentLoop triple Layout frags (some []) 0).instructions = some [] := by
  cases frags with
  | nil => rfl
  | cons f frags =>
    cases f with
    | Data contents fixups => simp [fragmentLoop, extractFragment, dataLoop]
    | Relaxable contents fixups => simp [fragmentLoop, extractFragment]
    | Other k => simp [fragmentLoop, extractFragment]

theorem fragmentLoop_groups (triple : Triple) (Layout : MCAsmLayout) (frags : List MCFragment) :
    ∀ (groups : List (List Instruction)) (pre : List Instruction),
      GroupsMatch frags groups → (∀ insn ∈ groups.flatten, 0 < insn.bytes.length) →
      groups.flatten ≠ [] →
      (fragmentLoop triple Layout frags (some (pre ++ groups.flatten)) pre.length).instructions
          = some (pre ++ slicedGroups frags groups)
        ∧ (fragmentLoop triple Layout frags (some (pre ++ groups.flatten)) pre.length).thrown
          = false := by
  induction frags with
  | nil =>
    intro groups pre h _ hne
    cases groups with
    | nil => exact absurd rfl hne
    | cons g groups => simp [GroupsMatch] at h
  | cons f frags ih =>
    intro groups pre h hpos hne
    cases f with
    | Other k =>
      simp only [GroupsMatch] at h
      have hlen : ¬ (pre.length ≥ (pre ++ groups.flatten).length) := by
        have : 0 < groups.flatten.length := List.length_pos.mpr hne
        simp only [List.length_append]; omega
      simp only [fragmentLoop, extractFragment, hlen, if_false, slicedGroups]
      exact ih groups pre h hpos hne
    | Data contents fixups =>
      cases groups with
      | nil => simp [GroupsMatch] at h
      | cons g groups =>
        simp only [GroupsMatch] at h
        obtain ⟨hg, hrest⟩ := h
        simp only [List.flatten_cons] at hpos hne ⊢
        have hcons : consume contents 0 (g ++ groups.flatten)
            = (sliceInstructions contents 0 g, groups.flatten) := by
          apply consume_group
          · omega
          · intro y hy
            have hmem : y ∈ groups.flatten := List.mem_of_mem_head? hy
            have := hpos y (List.mem_append_right _ hmem)
            omega
        simp only [fragmentLoop, extractFragment_data contents fixups pre _ hne, hcons,
          slicedGroups]
        by_cases hnil : groups.flatten = []
        · simp [hnil, sliceInstructions_length, slicedGroups_nil frags groups hrest hnil]
        · have hlen : ¬ (pre.length + (sliceInstructions contents 0 g).length
              ≥ (pre ++ sliceInstructions contents 0 g ++ groups.flatten).length) := by
            have : 0 < groups.flatten.length := List.length_pos.mpr hnil
            simp only [List.length_append]; omega
          have h := ih groups (pre ++ sliceInstructions contents 0 g) hrest
            (fun insn hi => hpos insn (List.mem_append_right _ hi)) hnil
          simp only [List.length_append] at h
          simp only [Bool.false_eq_true, if_false, hlen]
          simpa [List.append_assoc] using h
    | Relaxable contents fixups =>
      cases groups with
      | nil => simp [GroupsMatch] at h
      | cons g groups =>
        simp only [GroupsMatch] at h
        obtain ⟨hg, hrest⟩ := h
        match g, hg with
        | [x], _ =>
          simp only [List.flatten_cons, List.singleton_append] at hpos hne ⊢
          simp only [fragmentLoop, extractFragment, getElem?_append_length, set_append_length,
            slicedGroups, List.map_cons, List.map_nil]
          by_cases hnil : groups.flatten = []
          · simp [hnil, slicedGroups_nil frags groups hrest hnil]
          · have hlen : ¬ (pre.length + 1
                ≥ (pre ++ { x with bytes := contents } :: groups.flatten).length) := by
              have : 0 < groups.flatten.length := List.length_pos.mpr hnil
              simp only [List.length_append, List.length_cons]; omega
            have h := ih groups (pre ++ [{ x with bytes := contents }]) hrest
              (fun insn hi => hpos insn (List.mem_cons_of_mem _ hi)) hnil
            simp only [List.length_append, List.length_singleton, List.append_assoc,
              List.singleton_append] at h
            simp only [Bool.false_eq_true, if_false, hlen]
            simpa using h

theorem writeObject_instructions (self : ObjectWriterWrapper) (Asm : MCAssembler)
    (Layout : MCAsmLayout) (text_section : MCSection)
    (hfind : Layout.sectionOrder.find? (fun sec => sec.name == ".text") = some text_section) :
    (writeObject self Asm Layout).2.instructions
      = (fragmentLoop self.triple Layout text_section.fragments self.instructions 0).instructions := by
  unfold writeObject
  rw [hfind]
  simp only
  split
  · rfl
  · split <;> rfl

theorem writeObject_returns (self : ObjectWriterWrapper) (Asm : MCAssembler)
    (Layout : MCAsmLayout) (text_section : MCSection)
    (hfind : Layout.sectionOrder.find? (fun sec => sec.name == ".text") = some text_section)
    (hthrown : (fragmentLoop self.triple Layout text_section.fragments self.instructions 0).thrown
      = false) :
    (writeObject self Asm Layout).1 =
      some (if self.write_text_section_only then (Asm.writeSectionData text_section).length
        else self.inner_object_writer.writeObjectResult) := by
  unfold writeObject
  rw [hfind]
  simp only [hthrown]
  cases self.write_text_section_only <;> simp

theorem sliceInstructions_metadata (contents : List Byte) (group : List Instruction) :
    ∀ pos, (sliceInstructions contents pos group).map (fun insn => (insn.address, insn.assembly))
      = group.map (fun insn => (insn.address, insn.assembly)) := by
  induction group with
  | nil => intro pos; rfl
  | cons x group ih => intro pos; simp [sliceInstructions, ih]

theorem slicedGroups_metadata (frags : List MCFragment) :
    ∀ groups, GroupsMatch frags groups →
      (slicedGroups frags groups).map (fun insn => (insn.address, insn.assembly))
        = groups.flatten.map (fun insn => (insn.address, insn.assembly)) := by
  induction frags with
  | nil =>
    intro groups h
    cases groups with
    | nil => rfl
    | cons g groups => simp [GroupsMatch] at h
  | cons f frags ih =>
    intro groups h
    cases f with
    | Other k =>
      simp only [GroupsMatch] at h
      simp only [slicedGroups]
      exact ih groups h
    | Data contents fixups =>
      cases groups with
      | nil => simp [GroupsMatch] at h
      | cons g groups =>
        simp only [GroupsMatch] at h
        simp only [slicedGroups, List.flatten_cons, List.map_append,
          sliceInstructions_metadata, ih groups h.2]
    | Relaxable contents fixups =>
      cases groups with
      | nil => simp [GroupsMatch] at h
      | cons g groups =>
        simp only [GroupsMatch] at h
        simp only [slicedGroups, List.flatten_cons, List.map_append, List.map_map,
          ih groups h.2]
        rfl

theorem storedLength_take_succ (insns : List Instruction) :
    ∀ (i : Nat) (insn : Instruction), insns[i]? = some insn →
      storedLength (insns.take (i + 1)) = storedLength (insns.take i) + insn.bytes.length := by
  induction insns with
  | nil => intro i insn h; simp at h
  | cons x insns ih =>
    intro i insn h
    cases i with
    | zero =>
      simp at h
      subst h
      simp [storedLength]
    | succ i =>
      simp only [List.getElem?_cons_succ] at h
      simp only [List.take_succ_cons, storedLength, ih i insn h]
      omega

theorem sliceInstructions_getElem? (contents : List Byte) (insns : List Instruction) :
    ∀ (pos i : Nat) (insn : Instruction), insns[i]? = some insn →
      (sliceInstructions contents pos insns)[i]? = some { insn with
        bytes := (contents.drop (pos + storedLength (insns.take i))).take insn.bytes.length } := by
  induction insns with
  | nil => intro pos i insn h; simp at h
  | cons x insns ih =>
    intro pos i insn h
    cases i with
    | zero =>
      simp at h
      subst h
      simp [sliceInstructions, storedLength]
    | succ i =>
      simp only [List.getElem?_cons_succ] at h
      simp only [sliceInstructions, List.getElem?_cons_succ, List.take_succ_cons, storedLength,
        ih (pos + x.bytes.length) i insn h, Nat.add_assoc]

theorem fragmentLoop_single_data (triple : Triple) (Layout : MCAsmLayout)
    (contents : List Byte) (fixups : List MCFixup) (insns : List Instruction)
    (hsum : storedLength insns ≤ contents.length) :
    (fragmentLoop triple Layout [MCFragment.Data contents fixups] (some insns) 0).instructions
        = some (sliceInstructions contents 0 insns)
      ∧ (insns ≠ [] →
        (fragmentLoop triple Layout [MCFragment.Data contents fixups] (some insns) 0).thrown
          = false) := by
  by_cases hnil : insns = []
  · subst hnil
    exact ⟨fragmentLoop_nil_instructions _ _ _, fun h => absurd rfl h⟩
  · have hcons : consume contents 0 (insns ++ []) = (sliceInstructions contents 0 insns, []) :=
      consume_group contents insns [] 0 (by omega) (by simp)
    rw [List.append_nil] at hcons
    have he := extractFragment_data contents fixups [] insns hnil
    simp only [List.nil_append, List.length_nil, Nat.zero_add, hcons, List.append_nil] at he
    simp [fragmentLoop, he, sliceInstructions_length]


/-! ## Lemmas: dispatch of the validators -/

theorem validate_fixup_thumb (triple : Triple) (fixup : MCFixup) (Layout : MCAsmLayout)
    (hthumb : triple.is_ArmT16_or_ArmT32 = true) (harch : triple.isAArch64 = false) :
    validate_fixup triple fixup Layout = validate_arm_thumb fixup Layout := by
  simp [validate_fixup, hthumb, harch]


/-! ## Instruction byte extraction -/

/-- C1. Whole section extraction. Let the `.text` section consist of data, relaxable and other
fragments, and let the supplied instruction list be the concatenation of the groups `groups`,
one group per data or relaxable fragment in emission order, all stored byte lengths positive,
the stored lengths of the group of a data fragment summing to the length of its contents and
the group of a relaxable fragment being one instruction. Then after `writeObject` the
instruction list is `slicedGroups`: every instruction holds its own slice of the fragment
contents, order, address and assembly text are the original ones, and the bytes of all
instructions concatenated are the contents of the data and relaxable fragments concatenated.
When the list is not empty `writeObject` returns normally. -/
theorem writeObject_extracts_section (self : ObjectWriterWrapper) (Asm : MCAssembler)
    (Layout : MCAsmLayout) (text_section : MCSection) (groups : List (List Instruction))
    (hfind : Layout.sectionOrder.find? (fun sec => sec.name == ".text") = some text_section)
    (hinsns : self.instructions = some groups.flatten)
    (hpos : ∀ insn ∈ groups.flatten, 0 < insn.bytes.length)
    (hgroups : GroupsMatch text_section.fragments groups) :
    (writeObject self Asm Layout).2.instructions
        = some (slicedGroups text_section.fragments groups)
      ∧ (slicedGroups text_section.fragments groups).map
          (fun insn => (insn.address, insn.assembly))
        = groups.flatten.map (fun insn => (insn.address, insn.assembly))
      ∧ instructionBytes (slicedGroups text_section.fragments groups)
        = codeBytes text_section.fragments
      ∧ (groups.flatten ≠ [] → (writeObject self Asm Layout).1.isSome = true) := by
  refine ⟨?_, slicedGroups_metadata _ _ hgroups, slicedGroups_bytes _ _ hgroups, ?_⟩
  · rw [writeObject_instructions self Asm Layout text_section hfind, hinsns]
    by_cases hnil : groups.flatten = []
    · rw [hnil, fragmentLoop_nil_instructions, slicedGroups_nil _ _ hgroups hnil]
    · have h := (fragmentLoop_groups self.triple Layout text_section.fragments groups []
        hgroups hpos hnil).1
      simpa using h
  · intro hnil
    have h := (fragmentLoop_groups self.triple Layout text_section.fragments groups []
      hgroups hpos hnil).2
    rw [writeObject_returns self Asm Layout text_section hfind (by rw [hinsns]; simpa using h)]
    rfl

/-- Witness of C1: a data fragment of two instructions, an alignment fragment and a relaxed
branch; the three instructions receive `00 bf`, `01 20` and `00 f0 00 b8`. -/
theorem writeObject_extracts_section_witness :
    ((sampleLayout sampleFragments).sectionOrder.find? (fun sec => sec.name == ".text")
        = some ⟨".text", sampleFragments⟩
      ∧ (sampleWriter (some sampleInstructions.flatten)).instructions
        = some sampleInstructions.flatten
      ∧ (∀ insn ∈ sampleInstructions.flatten, 0 < insn.bytes.length)
      ∧ GroupsMatch sampleFragments sampleInstructions)
    ∧ (writeObject (sampleWriter (some sampleInstructions.flatten)) sampleAssembler
          (sampleLayout sampleFragments)).2.instructions
        = some (slicedGroups sampleFragments sampleInstructions)
    ∧ slicedGroups sampleFragments sampleInstructions
        = [⟨0x1000, "nop", [0x00, 0xbf]⟩, ⟨0x1002, "movs r0, r1", [0x01, 0x20]⟩,
            ⟨0x1004, "b.w far", [0x00, 0xf0, 0x00, 0xb8]⟩] :=
  ⟨⟨rfl, rfl, by decide, by simp [GroupsMatch, sampleFragments, sampleInstructions, storedLength]⟩,
    (writeObject_extracts_section (sampleWriter (some sampleInstructions.flatten))
      sampleAssembler (sampleLayout sampleFragments) ⟨".text", sampleFragments⟩
      sampleInstructions rfl rfl (by decide)
      (by simp [GroupsMatch, sampleFragments, sampleInstructions, storedLength])).1,
    by decide⟩

/-- C2 (P1). Let the `.text` section be one data fragment and let the stored lengths of the
`N` supplied instructions sum to the length of its contents. Then after `writeObject` the list
still has `N` instructions and, for every `i < N`, instruction `i` holds the bytes of the code
section at the positions from the sum of the stored lengths before `i` up to the sum of the
stored lengths through `i`. When `N > 0` `writeObject` returns normally. -/
theorem writeObject_data_fragment_P1 (self : ObjectWriterWrapper) (Asm : MCAssembler)
    (Layout : MCAsmLayout) (text_section : MCSection) (contents : List Byte)
    (fixups : List MCFixup) (insns : List Instruction)
    (hfind : Layout.sectionOrder.find? (fun sec => sec.name == ".text") = some text_section)
    (hfrags : text_section.fragments = [MCFragment.Data contents fixups])
    (hinsns : self.instructions = some insns)
    (hsum : storedLength insns = contents.length) :
    ∃ out, (writeObject self Asm Layout).2.instructions = some out
      ∧ out.length = insns.length
      ∧ (∀ i, i < insns.length → ∃ insn, out[i]? = some insn
          ∧ insn.bytes = byteRange (codeBytes text_section.fragments)
              (storedLength (insns.take i)) (storedLength (insns.take (i + 1))))
      ∧ (insns ≠ [] → (writeObject self Asm Layout).1.isSome = true) := by
  have hloop := fragmentLoop_single_data self.triple Layout contents fixups insns (by omega)
  refine ⟨sliceInstructions contents 0 insns, ?_, sliceInstructions_length _ _ _, ?_, ?_⟩
  · rw [writeObject_instructions self Asm Layout text_section hfind, hfrags, hinsns]
    exact hloop.1
  · intro i hi
    have hget : insns[i]? = some insns[i] := List.getElem?_eq_getElem hi
    refine ⟨_, sliceInstructions_getElem? contents insns 0 i _ hget, ?_⟩
    simp only [hfrags, codeBytes, List.append_nil, byteRange,
      storedLength_take_succ insns i _ hget, Nat.zero_add, Nat.add_sub_cancel_left]
  · intro hne
    rw [writeObject_returns self Asm Layout text_section hfind
      (by rw [hfrags, hinsns]; exact hloop.2 hne)]
    rfl

/-- Witness of C2: three instructions of 2, 1 and 3 bytes in a data fragment of 6 bytes. -/
theorem writeObject_data_fragment_P1_witness :
    ((sampleLayout [MCFragment.Data [1, 2, 3, 4, 5, 6] []]).sectionOrder.find?
          (fun sec => sec.name == ".text")
        = some ⟨".text", [MCFragment.Data [1, 2, 3, 4, 5, 6] []]⟩
      ∧ storedLength [⟨0, "a", [0, 0]⟩, ⟨2, "b", [0]⟩, ⟨3, "c", [0, 0, 0]⟩] = 6)
    ∧ ∃ out, (writeObject
          (sampleWriter (some [⟨0, "a", [0, 0]⟩, ⟨2, "b", [0]⟩, ⟨3, "c", [0, 0, 0]⟩]))
          sampleAssembler (sampleLayout [MCFragment.Data [1, 2, 3, 4, 5, 6] []])).2.instructions
        = some out
      ∧ out.length = 3
      ∧ (∀ i, i < 3 → ∃ insn, out[i]? = some insn
          ∧ insn.bytes = byteRange (codeBytes [MCFragment.Data [1, 2, 3, 4, 5, 6] []])
              (storedLength
                (([⟨0, "a", [0, 0]⟩, ⟨2, "b", [0]⟩, ⟨3, "c", [0, 0, 0]⟩] :
                  List Instruction).take i))
              (storedLength
                (([⟨0, "a", [0, 0]⟩, ⟨2, "b", [0]⟩, ⟨3, "c", [0, 0, 0]⟩] :
                  List Instruction).take (i + 1))))
      ∧ (([⟨0, "a", [0, 0]⟩, ⟨2, "b", [0]⟩, ⟨3, "c", [0, 0, 0]⟩] : List Instruction) ≠ [] →
        (writeObject
          (sampleWriter (some [⟨0, "a", [0, 0]⟩, ⟨2, "b", [0]⟩, ⟨3, "c", [0, 0, 0]⟩]))
          sampleAssembler
          (sampleLayout [MCFragment.Data [1, 2, 3, 4, 5, 6] []])).1.isSome = true) :=
  ⟨⟨rfl, rfl⟩,
    writeObject_data_fragment_P1
      (sampleWriter (some [⟨0, "a", [0, 0]⟩, ⟨2, "b", [0]⟩, ⟨3, "c", [0, 0, 0]⟩]))
      sampleAssembler (sampleLayout [MCFragment.Data [1, 2, 3, 4, 5, 6] []])
      ⟨".text", [MCFragment.Data [1, 2, 3, 4, 5, 6] []]⟩ [1, 2, 3, 4, 5, 6] []
      [⟨0, "a", [0, 0]⟩, ⟨2, "b", [0]⟩, ⟨3, "c", [0, 0, 0]⟩] rfl rfl rfl rfl⟩

/-- C3 (P2). When the fragment met at cursor `curr_insn` is relaxable and the cursor points
at an instruction, the extraction step replaces the bytes of that instruction by the whole
contents of the fragment and leaves everything else of the list as it was, so the length of
its byte buffer afterwards is the length of the fragment contents whatever the placeholder
was, and the cursor advances by exactly one. -/
theorem extractFragment_relaxable_P2 (contents : List Byte) (fixups : List MCFixup)
    (instructions : List Instruction) (curr_insn : Nat) (hcur : curr_insn < instructions.length) :
    ∃ insn, instructions[curr_insn]? = some insn
      ∧ extractFragment (MCFragment.Relaxable contents fixups) instructions curr_insn
        = ⟨instructions.set curr_insn { insn with bytes := contents }, curr_insn + 1, false⟩
      ∧ ((extractFragment (MCFragment.Relaxable contents fixups) instructions
            curr_insn).instructions[curr_insn]?).map (fun i => i.bytes)
          = some contents
      ∧ ((extractFragment (MCFragment.Relaxable contents fixups) instructions
            curr_insn).instructions[curr_insn]?).map (fun i => i.bytes.length)
          = some contents.length
      ∧ (extractFragment (MCFragment.Relaxable contents fixups) instructions
            curr_insn).curr_insn = curr_insn + 1 := by
  have hget : instructions[curr_insn]? = some instructions[curr_insn] :=
    List.getElem?_eq_getElem hcur
  refine ⟨instructions[curr_insn], hget, ?_, ?_, ?_, ?_⟩ <;>
    simp [extractFragment, hget, hcur]

/-- Witness of C3: a placeholder of 2 bytes and a relaxable fragment of 4 bytes give an
instruction of 4 bytes, and the cursor moves from 1 to 2. -/
theorem extractFragment_relaxable_P2_witness :
    (1 < ([⟨0x1000, "nop", [0x00, 0xbf]⟩, ⟨0x1002, "b.w far", [0, 0]⟩] :
        List Instruction).length)
    ∧ extractFragment (MCFragment.Relaxable [0x00, 0xf0, 0x00, 0xb8] [])
        [⟨0x1000, "nop", [0x00, 0xbf]⟩, ⟨0x1002, "b.w far", [0, 0]⟩] 1
      = ⟨[⟨0x1000, "nop", [0x00, 0xbf]⟩, ⟨0x1002, "b.w far", [0x00, 0xf0, 0x00, 0xb8]⟩], 2, false⟩
    ∧ ((extractFragment (MCFragment.Relaxable [0x00, 0xf0, 0x00, 0xb8] [])
          [⟨0x1000, "nop", [0x00, 0xbf]⟩, ⟨0x1002, "b.w far", [0, 0]⟩]
          1).instructions[1]?).map (fun i => i.bytes.length) = some 4 :=
  ⟨by decide, by decide,
    by
      obtain ⟨_, _, _, _, hlen, _⟩ := extractFragment_relaxable_P2 [0x00, 0xf0, 0x00, 0xb8] []
        [⟨0x1000, "nop", [0x00, 0xbf]⟩, ⟨0x1002, "b.w far", [0, 0]⟩] 1 (by decide)
      exact hlen⟩

/-! ## Relocation hook -/

/-- C4 (P7). On an AArch64 target, for a fixup that is PC relative, has the kind
`fixup_aarch64_pcrel_adrp_imm21` and whose expression is the target wrapper around a direct
symbol reference, `recordRelocation` returns normally and leaves in `FixedValue` the value
`alignUp(symbol offset, 0x1000)`, whatever value the wrapped writer computed. -/
theorem recordRelocation_P7 (triple : Triple) (fixupKindFlags : FixupKind → Nat)
    (Fixup : MCFixup) (innerFixedValue : Nat) (symbol : MCSymbol)
    (harch : triple.isAArch64 = true)
    (hpcrel : fixupKindFlags Fixup.kind &&& FKF_IsPCRel ≠ 0)
    (hkind : Fixup.kind = FixupKind.fixup_aarch64_pcrel_adrp_imm21)
    (hvalue : Fixup.value = some (MCExpr.Target (some (MCExpr.SymbolRef symbol)))) :
    recordRelocation triple fixupKindFlags Fixup innerFixedValue
      = some (alignUp symbol.offset 0x1000) := by
  unfold recordRelocation
  simp only [harch, if_true, hvalue, cast_AArch64MCExpr, cast_MCSymbolRefExpr, PAGE_SIZE]
  rw [hkind] at hpcrel
  simp [hkind, hpcrel]

/-- Witness of C4: for a symbol at offset `0x1234` the recorded value is `0x2000`, here in
place of the value `7` of the wrapped writer. -/
theorem recordRelocation_P7_witness :
    ((⟨false, true⟩ : Triple).isAArch64 = true
      ∧ (fun _ => 1) (sampleWrappedFixup FixupKind.fixup_aarch64_pcrel_adrp_imm21 0x1234).kind
          &&& FKF_IsPCRel ≠ 0
      ∧ (sampleWrappedFixup FixupKind.fixup_aarch64_pcrel_adrp_imm21 0x1234).kind
          = FixupKind.fixup_aarch64_pcrel_adrp_imm21
      ∧ (sampleWrappedFixup FixupKind.fixup_aarch64_pcrel_adrp_imm21 0x1234).value
          = some (MCExpr.Target (some (MCExpr.SymbolRef ⟨0, 0x1234⟩))))
    ∧ recordRelocation ⟨false, true⟩ (fun _ => 1)
        (sampleWrappedFixup FixupKind.fixup_aarch64_pcrel_adrp_imm21 0x1234) 7
      = some (alignUp 0x1234 0x1000)
    ∧ alignUp 0x1234 0x1000 = 0x2000 :=
  ⟨⟨rfl, by decide, rfl, rfl⟩,
    recordRelocation_P7 ⟨false, true⟩ (fun _ => 1)
      (sampleWrappedFixup FixupKind.fixup_aarch64_pcrel_adrp_imm21 0x1234) 7 ⟨0, 0x1234⟩
      rfl (by decide) rfl rfl,
    by decide⟩

/-- C5. For every relocation that is not at once on an AArch64 target, PC relative and of the
kind `fixup_aarch64_pcrel_adrp_imm21`, `recordRelocation` returns normally and `FixedValue`
is exactly the value the wrapped writer produced. -/
theorem recordRelocation_passes_through (triple : Triple) (fixupKindFlags : FixupKind → Nat)
    (Fixup : MCFixup) (innerFixedValue : Nat)
    (h : ¬ (triple.isAArch64 = true ∧ fixupKindFlags Fixup.kind &&& FKF_IsPCRel ≠ 0
      ∧ Fixup.kind = FixupKind.fixup_aarch64_pcrel_adrp_imm21)) :
    recordRelocation triple fixupKindFlags Fixup innerFixedValue = some innerFixedValue := by
  unfold recordRelocation
  by_cases harch : triple.isAArch64 = true
  · have h2 : ¬ (fixupKindFlags Fixup.kind &&& FKF_IsPCRel ≠ 0
        ∧ Fixup.kind = FixupKind.fixup_aarch64_pcrel_adrp_imm21) := fun hc => h ⟨harch, hc⟩
    simp only [harch, if_true, h2, if_false]
  · simp only [harch, Bool.false_eq_true, if_false]

/-- Witness of C5: the same page address fixup on a Thumb target, on AArch64 without the PC
relative flag, and an AArch64 fixup of another kind all keep the value `7` of the wrapped
writer. -/
theorem recordRelocation_passes_through_witness :
    recordRelocation ⟨true, false⟩ (fun _ => 1)
        (sampleWrappedFixup FixupKind.fixup_aarch64_pcrel_adrp_imm21 0x1234) 7 = some 7
    ∧ recordRelocation ⟨false, true⟩ (fun _ => 0)
        (sampleWrappedFixup FixupKind.fixup_aarch64_pcrel_adrp_imm21 0x1234) 7 = some 7
    ∧ recordRelocation ⟨false, true⟩ (fun _ => 1)
        (sampleWrappedFixup FixupKind.fixup_aarch64_pcrel_adr_imm21 0x1234) 7 = some 7 :=
  ⟨recordRelocation_passes_through ⟨true, false⟩ (fun _ => 1)
      (sampleWrappedFixup FixupKind.fixup_aarch64_pcrel_adrp_imm21 0x1234) 7 (by decide),
    recordRelocation_passes_through ⟨false, true⟩ (fun _ => 0)
      (sampleWrappedFixup FixupKind.fixup_aarch64_pcrel_adrp_imm21 0x1234) 7 (by decide),
    recordRelocation_passes_through ⟨false, true⟩ (fun _ => 1)
      (sampleWrappedFixup FixupKind.fixup_aarch64_pcrel_adr_imm21 0x1234) 7 (by decide)⟩

/-- C6. The claim fails on the code: on an AArch64 target, for a PC relative fixup of the
kind `fixup_aarch64_pcrel_adrp_imm21`, `recordRelocation` applies `cast<>` to the expression
without any test. For the wrapper around the binary expression `symbol + 4`, for a missing
expression and for an expression that is not the wrapper, an assertion of `cast<>` fails and
the method does not return the value `7` of the wrapped writer. -/
theorem recordRelocation_unguarded_cast :
    recordRelocation ⟨false, true⟩ (fun _ => 1)
        ⟨FixupKind.fixup_aarch64_pcrel_adrp_imm21,
          some (MCExpr.Target (some
            (MCExpr.Binary (MCExpr.SymbolRef ⟨0, 0x1234⟩) (MCExpr.Constant 4)))), 7⟩ 7
      = none
    ∧ recordRelocation ⟨false, true⟩ (fun _ => 1)
        ⟨FixupKind.fixup_aarch64_pcrel_adrp_imm21, none, 7⟩ 7 = none
    ∧ recordRelocation ⟨false, true⟩ (fun _ => 1)
        ⟨FixupKind.fixup_aarch64_pcrel_adrp_imm21, some (MCExpr.Constant 4), 7⟩ 7 = none := by
  decide

/-! ## Alignment utility -/

/-- C7, the claim as stated fails: `v = 2 ^ 64 - 1` is not a multiple of `a = 2`, and
`alignUp v a` is `0`, which is not strictly greater than `v`. -/
theorem alignUp_wraps_at_max :
    (2 ^ 64 - 1 : Nat) < 2 ^ 64 ∧ ¬ (2 ∣ (2 ^ 64 - 1 : Nat)) ∧ alignUp (2 ^ 64 - 1) 2 = 0
      ∧ ¬ ((2 ^ 64 - 1 : Nat) < alignUp (2 ^ 64 - 1) 2) := by
  decide

/-- C7, amended. For every `v < 2 ^ 64` and every power of two `a < 2 ^ 64`, `alignUp v a`
is `v` when `v` is a multiple of `a`; otherwise, with `m` the smallest multiple of `a` strictly
greater than `v`, `m` is at most `2 ^ 64` and `alignUp v a` is `m` reduced modulo `2 ^ 64`:
`m` itself when `m < 2 ^ 64`, and `0` when `m = 2 ^ 64`. -/
theorem alignUp_smallest_multiple (v a : Nat) (hv : v < 2 ^ 64)
    (ha : ∃ k, k < 64 ∧ a = 2 ^ k) :
    (a ∣ v → alignUp v a = v)
      ∧ (¬ a ∣ v → ∃ m, a ∣ m ∧ v < m ∧ (∀ n, a ∣ n → v < n → m ≤ n) ∧ m ≤ 2 ^ 64
          ∧ alignUp v a = if m < 2 ^ 64 then m else 0) := by
  obtain ⟨k, hk, rfl⟩ := ha
  have hpos : 0 < 2 ^ k := Nat.two_pow_pos k
  refine ⟨alignUp_of_dvd v _, fun hd => ?_⟩
  obtain ⟨hdvd, hlt, hleast⟩ := next_multiple_least v (2 ^ k) hpos
  have hle := next_multiple_le v k hv hk
  refine ⟨2 ^ k * (v / 2 ^ k + 1), hdvd, hlt, hleast, hle, ?_⟩
  rw [alignUp_of_not_dvd v _ hpos hd]
  split
  · rename_i h; exact Nat.mod_eq_of_lt h
  · rename_i h
    have : 2 ^ k * (v / 2 ^ k + 1) = 2 ^ 64 := Nat.le_antisymm hle (Nat.le_of_not_lt h)
    rw [this, Nat.mod_self]

/-- Witness of C7, amended: `alignUp 0x1234 0x1000`. -/
theorem alignUp_smallest_multiple_witness :
    ((0x1234 : Nat) < 2 ^ 64 ∧ ∃ k, k < 64 ∧ (0x1000 : Nat) = 2 ^ k)
    ∧ (0x1000 ∣ 0x1234 → alignUp 0x1234 0x1000 = 0x1234)
      ∧ (¬ 0x1000 ∣ 0x1234 → ∃ m, 0x1000 ∣ m ∧ 0x1234 < m
          ∧ (∀ n, 0x1000 ∣ n → 0x1234 < n → m ≤ n) ∧ m ≤ 2 ^ 64
          ∧ alignUp 0x1234 0x1000 = if m < 2 ^ 64 then m else 0) :=
  ⟨⟨by decide, 12, by decide, by decide⟩,
    alignUp_smallest_multiple 0x1234 0x1000 (by decide) ⟨12, by decide, by decide⟩⟩

/-- C8 (P3). For every `v < 2 ^ 64` and every power of two `a < 2 ^ 64`, with the arithmetic
of the code (modulo `2 ^ 64`): `alignUp` is idempotent, `alignUp v a` is a multiple of `a`,
and `alignUp v a - v`, computed modulo `2 ^ 64`, is less than `a`. -/
theorem alignUp_P3 (v a : Nat) (hv : v < 2 ^ 64) (ha : ∃ k, k < 64 ∧ a = 2 ^ k) :
    alignUp (alignUp v a) a = alignUp v a ∧ alignUp v a % a = 0 ∧
      (alignUp v a + 2 ^ 64 - v) % 2 ^ 64 < a := by
  obtain ⟨k, hk, rfl⟩ := ha
  exact alignUp_P3_of_le v (2 ^ k) (Nat.two_pow_pos k) (next_multiple_le v k hv hk)

/-- Witness of C8: the largest 64 bit value, where the sum wraps to `0`, with `a = 0x1000`. -/
theorem alignUp_P3_witness :
    ((2 ^ 64 - 1 : Nat) < 2 ^ 64 ∧ ∃ k, k < 64 ∧ (0x1000 : Nat) = 2 ^ k)
    ∧ alignUp (alignUp (2 ^ 64 - 1) 0x1000) 0x1000 = alignUp (2 ^ 64 - 1) 0x1000
    ∧ alignUp (2 ^ 64 - 1) 0x1000 % 0x1000 = 0
    ∧ (alignUp (2 ^ 64 - 1) 0x1000 + 2 ^ 64 - (2 ^ 64 - 1)) % 2 ^ 64 < 0x1000 :=
  ⟨⟨by decide, 12, by decide, by decide⟩,
    alignUp_P3 (2 ^ 64 - 1) 0x1000 (by decide) ⟨12, by decide, by decide⟩⟩

/-! ## Fixup validation on a Thumb target -/

/-- C9 (P4). For every fixup whose expression is a direct symbol reference and whose kind is
`fixup_thumb_adr_pcrel_10` or `fixup_arm_thumb_cp`, the Thumb validator reports an error if
and only if the resolved target address, the offset of the fragment of the symbol plus the
offset of the symbol, is not a multiple of 4; the error is the single diagnostic
`misaligned label address (reported by nyxstone)` at the location of the fixup. On a Thumb
target that is not AArch64 these are all the errors validation reports for the fixup. -/
theorem validate_arm_thumb_P4 (triple : Triple) (fixup : MCFixup) (Layout : MCAsmLayout)
    (symbol : MCSymbol)
    (hvalue : fixup.value = some (MCExpr.SymbolRef symbol))
    (hkind : fixup.kind = FixupKind.fixup_thumb_adr_pcrel_10
      ∨ fixup.kind = FixupKind.fixup_arm_thumb_cp) :
    (validate_arm_thumb fixup Layout ≠ []
        ↔ (Layout.getFragmentOffset symbol.fragment + symbol.offset) % 4 ≠ 0)
      ∧ validate_arm_thumb fixup Layout =
        (if (Layout.getFragmentOffset symbol.fragment + symbol.offset) % 4 ≠ 0 then
          [⟨fixup.loc, "misaligned label address (reported by nyxstone)"⟩]
        else [])
      ∧ (triple.is_ArmT16_or_ArmT32 = true → triple.isAArch64 = false →
        validate_fixup triple fixup Layout = validate_arm_thumb fixup Layout) := by
  have key : validate_arm_thumb fixup Layout =
        if (Layout.getFragmentOffset symbol.fragment + symbol.offset) % 4 ≠ 0 then
          [⟨fixup.loc, "misaligned label address (reported by nyxstone)"⟩]
        else [] := by
    unfold validate_arm_thumb
    rw [hvalue]
    rcases hkind with hk | hk <;>
      simp [hk, and_three_eq_mod, mod64_lit_mod_four]
  refine ⟨?_, key, validate_fixup_thumb triple fixup Layout⟩
  rw [key]
  split <;> simp_all

/-- Witness of C9: a label at offset 2 from the base `0x1000` fails, a label at offset 4
reports nothing. -/
theorem validate_arm_thumb_P4_witness :
    validate_arm_thumb (sampleSymbolFixup FixupKind.fixup_thumb_adr_pcrel_10 2) (sampleLayout [])
        = [⟨7, "misaligned label address (reported by nyxstone)"⟩]
    ∧ validate_arm_thumb (sampleSymbolFixup FixupKind.fixup_arm_thumb_cp 4) (sampleLayout [])
        = [] :=
  ⟨(validate_arm_thumb_P4 ⟨true, false⟩ (sampleSymbolFixup FixupKind.fixup_thumb_adr_pcrel_10 2)
      (sampleLayout []) ⟨0, 2⟩ rfl (Or.inl rfl)).2.1,
    (validate_arm_thumb_P4 ⟨true, false⟩ (sampleSymbolFixup FixupKind.fixup_arm_thumb_cp 4)
      (sampleLayout []) ⟨0, 4⟩ rfl (Or.inr rfl)).2.1⟩

/-- C10 (P5). For every fixup whose expression is a direct symbol reference and whose kind is
`fixup_t2_adr_pcrel_12`, with `offset` the symbol offset as a signed 64 bit integer minus 4,
the Thumb validator reports an error if and only if `offset <= -4096` or `offset >= 4096`;
the error is the single diagnostic `out of range pc-relative fixup value (reported by
Nyxstone)` at the location of the fixup. The same holds for the difference as reduced to 64
bits by the code. On a Thumb target that is not AArch64 these are all the errors validation
reports for the fixup. -/
theorem validate_arm_thumb_P5 (triple : Triple) (fixup : MCFixup) (Layout : MCAsmLayout)
    (symbol : MCSymbol)
    (hvalue : fixup.value = some (MCExpr.SymbolRef symbol))
    (hkind : fixup.kind = FixupKind.fixup_t2_adr_pcrel_12) :
    (validate_arm_thumb fixup Layout ≠ []
        ↔ (toInt64 symbol.offset - 4 ≤ -4096 ∨ toInt64 symbol.offset - 4 ≥ 4096))
      ∧ validate_arm_thumb fixup Layout =
        (if toInt64 symbol.offset - 4 ≤ -4096 ∨ toInt64 symbol.offset - 4 ≥ 4096 then
          [⟨fixup.loc, "out of range pc-relative fixup value (reported by Nyxstone)"⟩]
        else [])
      ∧ ((wrapInt64 (toInt64 symbol.offset - 4) ≤ -4096
            ∨ wrapInt64 (toInt64 symbol.offset - 4) ≥ 4096)
          ↔ (toInt64 symbol.offset - 4 ≤ -4096 ∨ toInt64 symbol.offset - 4 ≥ 4096))
      ∧ (triple.is_ArmT16_or_ArmT32 = true → triple.isAArch64 = false →
        validate_fixup triple fixup Layout = validate_arm_thumb fixup Layout) := by
  have hcond : (wrapInt64 (toInt64 symbol.offset - 4) ≤ -4096
        ∨ wrapInt64 (toInt64 symbol.offset - 4) ≥ 4096)
      ↔ (toInt64 symbol.offset - 4 ≤ -4096 ∨ toInt64 symbol.offset - 4 ≥ 4096) := by
    obtain ⟨h1, h2⟩ := toInt64_range symbol.offset
    rw [wrapInt64_sub_four _ h1 h2]
    split <;> omega
  have key : validate_arm_thumb fixup Layout =
        if toInt64 symbol.offset - 4 ≤ -4096 ∨ toInt64 symbol.offset - 4 ≥ 4096 then
          [⟨fixup.loc, "out of range pc-relative fixup value (reported by Nyxstone)"⟩]
        else [] := by
    unfold validate_arm_thumb
    rw [hvalue]
    simp only [hkind]
    simp [hcond]
  refine ⟨?_, key, hcond, validate_fixup_thumb triple fixup Layout⟩
  rw [key]
  split <;> simp_all

/-- Witness of C10: the offsets `-4096` and `4096` (symbol offsets `2 ^ 64 - 4092` and `4100`)
fail, the offsets `-4095` and `4095` (symbol offsets `2 ^ 64 - 4091` and `4099`) succeed. -/
theorem validate_arm_thumb_P5_witness :
    (toInt64 (2 ^ 64 - 4092) - 4 = -4096 ∧ toInt64 4100 - 4 = 4096
      ∧ toInt64 (2 ^ 64 - 4091) - 4 = -4095 ∧ toInt64 4099 - 4 = 4095)
    ∧ validate_arm_thumb (sampleSymbolFixup FixupKind.fixup_t2_adr_pcrel_12 (2 ^ 64 - 4092))
        (sampleLayout []) ≠ []
    ∧ validate_arm_thumb (sampleSymbolFixup FixupKind.fixup_t2_adr_pcrel_12 4100)
        (sampleLayout []) ≠ []
    ∧ ¬ (validate_arm_thumb (sampleSymbolFixup FixupKind.fixup_t2_adr_pcrel_12 (2 ^ 64 - 4091))
        (sampleLayout []) ≠ [])
    ∧ ¬ (validate_arm_thumb (sampleSymbolFixup FixupKind.fixup_t2_adr_pcrel_12 4099)
        (sampleLayout []) ≠ []) :=
  ⟨by decide,
    (validate_arm_thumb_P5 ⟨true, false⟩
      (sampleSymbolFixup FixupKind.fixup_t2_adr_pcrel_12 (2 ^ 64 - 4092)) (sampleLayout [])
      ⟨0, 2 ^ 64 - 4092⟩ rfl rfl).1.mpr (by decide),
    (validate_arm_thumb_P5 ⟨true, false⟩
      (sampleSymbolFixup FixupKind.fixup_t2_adr_pcrel_12 4100) (sampleLayout [])
      ⟨0, 4100⟩ rfl rfl).1.mpr (by decide),
    fun h => absurd ((validate_arm_thumb_P5 ⟨true, false⟩
      (sampleSymbolFixup FixupKind.fixup_t2_adr_pcrel_12 (2 ^ 64 - 4091)) (sampleLayout [])
      ⟨0, 2 ^ 64 - 4091⟩ rfl rfl).1.mp h) (by decide),
    fun h => absurd ((validate_arm_thumb_P5 ⟨true, false⟩
      (sampleSymbolFixup FixupKind.fixup_t2_adr_pcrel_12 4099) (sampleLayout [])
      ⟨0, 4099⟩ rfl rfl).1.mp h) (by decide)⟩

/-! ## Fixup validation: remaining kinds -/

theorem validate_fixup_aarch64 (triple : Triple) (fixup : MCFixup) (Layout : MCAsmLayout)
    (hthumb : triple.is_ArmT16_or_ArmT32 = false) (harch : triple.isAArch64 = true) :
    validate_fixup triple fixup Layout = validate_aarch64 triple fixup Layout := by
  simp [validate_fixup, hthumb, harch]

/-- C11 (P6). On an AArch64 target, for every fixup of the kind
`fixup_aarch64_pcrel_adr_imm21` whose expression is the target wrapper around a direct symbol
reference, with `offset` the symbol offset as a signed 64 bit integer (no PC adjustment), the
AArch64 validator reports an error if and only if `offset < -0x100000` or
`offset >= 0x100000`; the error is the single diagnostic `fixup value out of range (reported
by Nyxstone)` at the location of the fixup. On an AArch64 target that is not Thumb these are
all the errors validation reports for the fixup. -/
theorem validate_aarch64_P6 (triple : Triple) (fixup : MCFixup) (Layout : MCAsmLayout)
    (symbol : MCSymbol)
    (harch : triple.isAArch64 = true)
    (hkind : fixup.kind = FixupKind.fixup_aarch64_pcrel_adr_imm21)
    (hvalue : fixup.value = some (MCExpr.Target (some (MCExpr.SymbolRef symbol)))) :
    (validate_aarch64 triple fixup Layout ≠ []
        ↔ (toInt64 symbol.offset < -0x100000 ∨ toInt64 symbol.offset ≥ 0x100000))
      ∧ validate_aarch64 triple fixup Layout =
        (if toInt64 symbol.offset < -0x100000 ∨ toInt64 symbol.offset ≥ 0x100000 then
          [⟨fixup.loc, "fixup value out of range (reported by Nyxstone)"⟩]
        else [])
      ∧ (triple.is_ArmT16_or_ArmT32 = false →
        validate_fixup triple fixup Layout = validate_aarch64 triple fixup Layout) := by
  have key : validate_aarch64 triple fixup Layout =
        if toInt64 symbol.offset < -0x100000 ∨ toInt64 symbol.offset ≥ 0x100000 then
          [⟨fixup.loc, "fixup value out of range (reported by Nyxstone)"⟩]
        else [] := by
    unfold validate_aarch64
    rw [hvalue]
    simp [harch, hkind]
  refine ⟨?_, key, fun hthumb => validate_fixup_aarch64 triple fixup Layout hthumb harch⟩
  rw [key]
  split <;> simp_all

/-- Witness of C11: the offsets `0x100000` and `-0x100001` fail, the offsets `0xFFFFF` and
`-0x100000` succeed. -/
theorem validate_aarch64_P6_witness :
    (toInt64 0x100000 = 0x100000 ∧ toInt64 (2 ^ 64 - 0x100001) = -0x100001
      ∧ toInt64 0xFFFFF = 0xFFFFF ∧ toInt64 (2 ^ 64 - 0x100000) = -0x100000)
    ∧ validate_aarch64 ⟨false, true⟩
        (sampleWrappedFixup FixupKind.fixup_aarch64_pcrel_adr_imm21 0x100000) (sampleLayout [])
      = [⟨7, "fixup value out of range (reported by Nyxstone)"⟩]
    ∧ validate_aarch64 ⟨false, true⟩
        (sampleWrappedFixup FixupKind.fixup_aarch64_pcrel_adr_imm21 (2 ^ 64 - 0x100001))
        (sampleLayout [])
      = [⟨7, "fixup value out of range (reported by Nyxstone)"⟩]
    ∧ validate_aarch64 ⟨false, true⟩
        (sampleWrappedFixup FixupKind.fixup_aarch64_pcrel_adr_imm21 0xFFFFF) (sampleLayout [])
      = []
    ∧ validate_aarch64 ⟨false, true⟩
        (sampleWrappedFixup FixupKind.fixup_aarch64_pcrel_adr_imm21 (2 ^ 64 - 0x100000))
        (sampleLayout [])
      = [] :=
  ⟨by decide,
    (validate_aarch64_P6 ⟨false, true⟩
      (sampleWrappedFixup FixupKind.fixup_aarch64_pcrel_adr_imm21 0x100000) (sampleLayout [])
      ⟨0, 0x100000⟩ rfl rfl rfl).2.1,
    (validate_aarch64_P6 ⟨false, true⟩
      (sampleWrappedFixup FixupKind.fixup_aarch64_pcrel_adr_imm21 (2 ^ 64 - 0x100001))
      (sampleLayout []) ⟨0, 2 ^ 64 - 0x100001⟩ rfl rfl rfl).2.1,
    (validate_aarch64_P6 ⟨false, true⟩
      (sampleWrappedFixup FixupKind.fixup_aarch64_pcrel_adr_imm21 0xFFFFF) (sampleLayout [])
      ⟨0, 0xFFFFF⟩ rfl rfl rfl).2.1,
    (validate_aarch64_P6 ⟨false, true⟩
      (sampleWrappedFixup FixupKind.fixup_aarch64_pcrel_adr_imm21 (2 ^ 64 - 0x100000))
      (sampleLayout []) ⟨0, 2 ^ 64 - 0x100000⟩ rfl rfl rfl).2.1⟩

/-- C12. For every fixup whose expression is a direct symbol reference and whose kind is one
of the branch kinds `fixup_arm_thumb_br`, `fixup_arm_thumb_bl`, `fixup_arm_thumb_bcc`,
`fixup_t2_uncondbranch`, `fixup_t2_condbranch`, the Thumb validator reports an error if and
only if the resolved target address, the offset of the fragment of the symbol plus the offset
of the symbol, is odd; the error is the single diagnostic `misaligned label address (reported
by nyxstone)` at the location of the fixup. On a Thumb target that is not AArch64 these are
all the errors validation reports for the fixup. -/
theorem validate_arm_thumb_branch (triple : Triple) (fixup : MCFixup) (Layout : MCAsmLayout)
    (symbol : MCSymbol)
    (hvalue : fixup.value = some (MCExpr.SymbolRef symbol))
    (hkind : fixup.kind = FixupKind.fixup_arm_thumb_br
      ∨ fixup.kind = FixupKind.fixup_arm_thumb_bl
      ∨ fixup.kind = FixupKind.fixup_arm_thumb_bcc
      ∨ fixup.kind = FixupKind.fixup_t2_uncondbranch
      ∨ fixup.kind = FixupKind.fixup_t2_condbranch) :
    (validate_arm_thumb fixup Layout ≠ []
        ↔ (Layout.getFragmentOffset symbol.fragment + symbol.offset) % 2 = 1)
      ∧ validate_arm_thumb fixup Layout =
        (if (Layout.getFragmentOffset symbol.fragment + symbol.offset) % 2 = 1 then
          [⟨fixup.loc, "misaligned label address (reported by nyxstone)"⟩]
        else [])
      ∧ (triple.is_ArmT16_or_ArmT32 = true → triple.isAArch64 = false →
        validate_fixup triple fixup Layout = validate_arm_thumb fixup Layout) := by
  have key : validate_arm_thumb fixup Layout =
        if (Layout.getFragmentOffset symbol.fragment + symbol.offset) % 2 = 1 then
          [⟨fixup.loc, "misaligned label address (reported by nyxstone)"⟩]
        else [] := by
    unfold validate_arm_thumb
    rw [hvalue]
    rcases hkind with hk | hk | hk | hk | hk <;>
      simp [hk, mod64_lit_mod_two]
  refine ⟨?_, key, validate_fixup_thumb triple fixup Layout⟩
  rw [key]
  split <;> simp_all

/-- Witness of C12: a branch to the odd address `0x1000 + 3` fails, a branch to the even
address `0x1000 + 2` reports nothing. -/
theorem validate_arm_thumb_branch_witness :
    validate_arm_thumb (sampleSymbolFixup FixupKind.fixup_arm_thumb_bcc 3) (sampleLayout [])
        = [⟨7, "misaligned label address (reported by nyxstone)"⟩]
    ∧ validate_arm_thumb (sampleSymbolFixup FixupKind.fixup_t2_uncondbranch 2) (sampleLayout [])
        = [] :=
  ⟨(validate_arm_thumb_branch ⟨true, false⟩ (sampleSymbolFixup FixupKind.fixup_arm_thumb_bcc 3)
      (sampleLayout []) ⟨0, 3⟩ rfl (Or.inr (Or.inr (Or.inl rfl)))).2.1,
    (validate_arm_thumb_branch ⟨true, false⟩
      (sampleSymbolFixup FixupKind.fixup_t2_uncondbranch 2)
      (sampleLayout []) ⟨0, 2⟩ rfl (Or.inr (Or.inr (Or.inr (Or.inl rfl))))).2.1⟩

/-- C13. For every fixup whose expression is a direct symbol reference and whose kind is
`fixup_t2_pcrel_10`, with `offset` the symbol offset as a signed 64 bit integer minus 4, the
Thumb validator reports the range error exactly when `offset < -1020` or `offset > 1020`, and
after it the alignment error exactly when the resolved address (fragment offset plus symbol
offset) is not a multiple of 4. The two checks are independent: the number of errors is the
number of the two conditions that hold. The range condition is the same for the difference as
reduced to 64 bits by the code. On a Thumb target that is not AArch64 these are all the errors
validation reports for the fixup. -/
theorem validate_arm_thumb_pcrel_10 (triple : Triple) (fixup : MCFixup) (Layout : MCAsmLayout)
    (symbol : MCSymbol)
    (hvalue : fixup.value = some (MCExpr.SymbolRef symbol))
    (hkind : fixup.kind = FixupKind.fixup_t2_pcrel_10) :
    validate_arm_thumb fixup Layout =
        (if toInt64 symbol.offset - 4 < -1020 ∨ toInt64 symbol.offset - 4 > 1020 then
          [⟨fixup.loc, "out of range pc-relative fixup value (reported by Nyxstone)"⟩]
        else [])
        ++ (if (Layout.getFragmentOffset symbol.fragment + symbol.offset) % 4 ≠ 0 then
          [⟨fixup.loc, "misaligned label address (reported by Nyxstone)"⟩]
        else [])
      ∧ (validate_arm_thumb fixup Layout).length =
        (if toInt64 symbol.offset - 4 < -1020 ∨ toInt64 symbol.offset - 4 > 1020 then 1 else 0)
        + (if (Layout.getFragmentOffset symbol.fragment + symbol.offset) % 4 ≠ 0 then 1 else 0)
      ∧ ((wrapInt64 (toInt64 symbol.offset - 4) < -1020
            ∨ wrapInt64 (toInt64 symbol.offset - 4) > 1020)
          ↔ (toInt64 symbol.offset - 4 < -1020 ∨ toInt64 symbol.offset - 4 > 1020))
      ∧ (triple.is_ArmT16_or_ArmT32 = true → triple.isAArch64 = false →
        validate_fixup triple fixup Layout = validate_arm_thumb fixup Layout) := by
  have hcond : (wrapInt64 (toInt64 symbol.offset - 4) < -1020
        ∨ wrapInt64 (toInt64 symbol.offset - 4) > 1020)
      ↔ (toInt64 symbol.offset - 4 < -1020 ∨ toInt64 symbol.offset - 4 > 1020) := by
    obtain ⟨h1, h2⟩ := toInt64_range symbol.offset
    rw [wrapInt64_sub_four _ h1 h2]
    split <;> omega
  have key : validate_arm_thumb fixup Layout =
        (if toInt64 symbol.offset - 4 < -1020 ∨ toInt64 symbol.offset - 4 > 1020 then
          [⟨fixup.loc, "out of range pc-relative fixup value (reported by Nyxstone)"⟩]
        else [])
        ++ (if (Layout.getFragmentOffset symbol.fragment + symbol.offset) % 4 ≠ 0 then
          [⟨fixup.loc, "misaligned label address (reported by Nyxstone)"⟩]
        else []) := by
    unfold validate_arm_thumb
    rw [hvalue]
    simp only [hkind]
    simp [hcond, and_three_eq_mod, mod64_lit_mod_four]
  refine ⟨key, ?_, hcond, validate_fixup_thumb triple fixup Layout⟩
  rw [key, List.length_append]
  congr 1 <;> split <;> rfl

/-- Witness of C13, with fragment offset `0x1000`: symbol offset `2002` fails both checks,
`2000` only the range check, `6` only the alignment check, `8` none. -/
theorem validate_arm_thumb_pcrel_10_witness :
    validate_arm_thumb (sampleSymbolFixup FixupKind.fixup_t2_pcrel_10 2002) (sampleLayout [])
        = [⟨7, "out of range pc-relative fixup value (reported by Nyxstone)"⟩,
            ⟨7, "misaligned label address (reported by Nyxstone)"⟩]
    ∧ validate_arm_thumb (sampleSymbolFixup FixupKind.fixup_t2_pcrel_10 2000) (sampleLayout [])
        = [⟨7, "out of range pc-relative fixup value (reported by Nyxstone)"⟩]
    ∧ validate_arm_thumb (sampleSymbolFixup FixupKind.fixup_t2_pcrel_10 6) (sampleLayout [])
        = [⟨7, "misaligned label address (reported by Nyxstone)"⟩]
    ∧ validate_arm_thumb (sampleSymbolFixup FixupKind.fixup_t2_pcrel_10 8) (sampleLayout [])
        = [] :=
  ⟨(validate_arm_thumb_pcrel_10 ⟨true, false⟩ (sampleSymbolFixup FixupKind.fixup_t2_pcrel_10 2002)
      (sampleLayout []) ⟨0, 2002⟩ rfl rfl).1,
    (validate_arm_thumb_pcrel_10 ⟨true, false⟩ (sampleSymbolFixup FixupKind.fixup_t2_pcrel_10 2000)
      (sampleLayout []) ⟨0, 2000⟩ rfl rfl).1,
    (validate_arm_thumb_pcrel_10 ⟨true, false⟩ (sampleSymbolFixup FixupKind.fixup_t2_pcrel_10 6)
      (sampleLayout []) ⟨0, 6⟩ rfl rfl).1,
    (validate_arm_thumb_pcrel_10 ⟨true, false⟩ (sampleSymbolFixup FixupKind.fixup_t2_pcrel_10 8)
      (sampleLayout []) ⟨0, 8⟩ rfl rfl).1⟩

/-- C19. A fixup whose expression is absent or is not a direct symbol reference makes the
Thumb validator report nothing, for every fixup kind and every layout; on a Thumb target that
is not AArch64 validation reports no error for it. -/
theorem validate_arm_thumb_not_symbolref (triple : Triple) (fixup : MCFixup)
    (Layout : MCAsmLayout)
    (hvalue : ∀ symbol, fixup.value ≠ some (MCExpr.SymbolRef symbol)) :
    validate_arm_thumb fixup Layout = []
      ∧ (triple.is_ArmT16_or_ArmT32 = true → triple.isAArch64 = false →
        validate_fixup triple fixup Layout = []) := by
  have key : validate_arm_thumb fixup Layout = [] := by
    unfold validate_arm_thumb
    split
    · rename_i symbol h
      exact absurd h (hvalue symbol)
    · rfl
  exact ⟨key, fun h1 h2 => by rw [validate_fixup_thumb triple fixup Layout h1 h2, key]⟩

/-- Witness of C19: a branch fixup without expression, and a short address load fixup whose
expression is `symbol + 2` with the symbol at the misaligned offset 2. -/
theorem validate_arm_thumb_not_symbolref_witness :
    validate_arm_thumb ⟨FixupKind.fixup_arm_thumb_bl, none, 7⟩ (sampleLayout []) = []
    ∧ validate_fixup ⟨true, false⟩
        ⟨FixupKind.fixup_thumb_adr_pcrel_10,
          some (MCExpr.Binary (MCExpr.SymbolRef ⟨0, 2⟩) (MCExpr.Constant 2)), 7⟩
        (sampleLayout []) = [] :=
  ⟨(validate_arm_thumb_not_symbolref ⟨true, false⟩ ⟨FixupKind.fixup_arm_thumb_bl, none, 7⟩
      (sampleLayout []) (fun _ h => by cases h)).1,
    (validate_arm_thumb_not_symbolref ⟨true, false⟩
      ⟨FixupKind.fixup_thumb_adr_pcrel_10,
        some (MCExpr.Binary (MCExpr.SymbolRef ⟨0, 2⟩) (MCExpr.Constant 2)), 7⟩
      (sampleLayout []) (fun _ h => by cases h)).2 rfl rfl⟩

theorem validate_fixup_list_append (triple : Triple) (Layout : MCAsmLayout)
    (l₁ l₂ : List MCFixup) :
    validate_fixup_list triple Layout (l₁ ++ l₂)
      = validate_fixup_list triple Layout l₁ ++ validate_fixup_list triple Layout l₂ := by
  induction l₁ with
  | nil => rfl
  | cons x l₁ ih => simp [validate_fixup_list, ih]

/-- C18. Errors accumulate within a fragment. For a data fragment and for a relaxable
fragment the errors `validate_fixups` reports are the concatenation, in fixup order, of the
errors each fixup produces when it is the only fixup of the fragment, which are the errors of
the loop body for that fixup; so the errors of the fixups before a fixup and after it are all
kept, whatever that fixup reports. A fragment of any other kind produces no error. -/
theorem validate_fixups_accumulates (triple : Triple) (Layout : MCAsmLayout)
    (contents : List Byte) (fixups : List MCFixup) :
    validate_fixups triple (MCFragment.Data contents fixups) Layout
        = (fixups.map (fun fixup =>
            validate_fixups triple (MCFragment.Data contents [fixup]) Layout)).flatten
      ∧ validate_fixups triple (MCFragment.Relaxable contents fixups) Layout
        = (fixups.map (fun fixup =>
            validate_fixups triple (MCFragment.Relaxable contents [fixup]) Layout)).flatten
      ∧ (∀ fixup, validate_fixups triple (MCFragment.Data contents [fixup]) Layout
            = validate_fixup triple fixup Layout
          ∧ validate_fixups triple (MCFragment.Relaxable contents [fixup]) Layout
            = validate_fixup triple fixup Layout)
      ∧ (∀ before fixup after,
          validate_fixups triple (MCFragment.Data contents (before ++ fixup :: after)) Layout
            = validate_fixups triple (MCFragment.Data contents before) Layout
              ++ validate_fixup triple fixup Layout
              ++ validate_fixups triple (MCFragment.Data contents after) Layout)
      ∧ (∀ kind, validate_fixups triple (MCFragment.Other kind) Layout = []) := by
  have hsingle : ∀ fixup, validate_fixup_list triple Layout [fixup]
      = validate_fixup triple fixup Layout := by
    intro fixup; simp [validate_fixup_list]
  have hflat : ∀ l : List MCFixup, validate_fixup_list triple Layout l
      = (l.map (fun fixup => validate_fixup_list triple Layout [fixup])).flatten := by
    intro l
    induction l with
    | nil => rfl
    | cons x l ih =>
      rw [List.map_cons, List.flatten_cons, ← ih, hsingle]
      rfl
  refine ⟨hflat fixups, hflat fixups, fun fixup => ⟨hsingle fixup, hsingle fixup⟩, ?_,
    fun _ => rfl⟩
  intro before fixup after
  simp only [validate_fixups]
  rw [validate_fixup_list_append]
  simp [validate_fixup_list]

/-! ## Lemmas: the frame of the extraction -/

theorem length_take_drop (contents : List Byte) (pos n : Nat) (h : ¬ (pos + n > contents.length)) :
    ((contents.drop pos).take n).length = n := by
  rw [List.length_take, List.length_drop]
  omega

theorem consume_frame (contents : List Byte) (rest : List Instruction) :
    ∀ pos, ∃ taken, rest = taken ++ (consume contents pos rest).2
      ∧ List.Forall₂ SameShape taken (consume contents pos rest).1 := by
  induction rest with
  | nil => intro pos; exact ⟨[], rfl, List.Forall₂.nil⟩
  | cons x rest ih =>
    intro pos
    by_cases hfit : pos + x.bytes.length > contents.length
    · refine ⟨[], ?_, ?_⟩ <;> simp [consume, hfit]
    · obtain ⟨taken, hsplit, hshape⟩ := ih (pos + x.bytes.length)
      refine ⟨x :: taken, ?_, ?_⟩
      · simp only [consume, hfit, if_false, List.cons_append]
        rw [← hsplit]
      · simp only [consume, hfit, if_false]
        exact List.Forall₂.cons ⟨rfl, rfl, length_take_drop contents pos _ hfit⟩ hshape

theorem filledFrom_of_sameShape (frags : List MCFragment) (a b : Instruction)
    (h : SameShape a b) : FilledFrom frags a b :=
  ⟨h.1, h.2.1, Or.inl h.2.2⟩

theorem filledFrom_cons (f : MCFragment) (frags : List MCFragment) (a b : Instruction)
    (h : FilledFrom frags a b) : FilledFrom (f :: frags) a b := by
  obtain ⟨h1, h2, h3⟩ := h
  refine ⟨h1, h2, ?_⟩
  rcases h3 with h3 | ⟨c, fx, hmem, hb⟩
  · exact Or.inl h3
  · exact Or.inr ⟨c, fx, List.mem_cons_of_mem _ hmem, hb⟩

theorem fragmentLoop_frame (triple : Triple) (Layout : MCAsmLayout) (frags : List MCFragment) :
    ∀ (pre rest : List Instruction), rest ≠ [] →
      ∃ taken filled remaining, rest = taken ++ remaining
        ∧ List.Forall₂ (FilledFrom frags) taken filled
        ∧ (fragmentLoop triple Layout frags (some (pre ++ rest)) pre.length).instructions
          = some (pre ++ filled ++ remaining)
        ∧ (fragmentLoop triple Layout frags (some (pre ++ rest)) pre.length).curr_insn
          = pre.length + filled.length
        ∧ (fragmentLoop triple Layout frags (some (pre ++ rest)) pre.length).thrown = false := by
  induction frags with
  | nil =>
    intro pre rest _
    exact ⟨[], [], rest, rfl, List.Forall₂.nil, by simp [fragmentLoop], by simp [fragmentLoop],
      by simp [fragmentLoop]⟩
  | cons f frags ih =>
    intro pre rest hne
    cases f with
    | Other k =>
      have hlen : ¬ (pre.length ≥ (pre ++ rest).length) := by
        have : 0 < rest.length := List.length_pos.mpr hne
        simp only [List.length_append]; omega
      obtain ⟨taken, filled, remaining, hsplit, hfilled, hi, hc, ht⟩ := ih pre rest hne
      simp only [fragmentLoop, extractFragment, Bool.false_eq_true, if_false, hlen]
      exact ⟨taken, filled, remaining, hsplit,
        hfilled.imp (fun _ _ h => filledFrom_cons _ _ _ _ h), hi, hc, ht⟩
    | Data contents fixups =>
      obtain ⟨taken, hsplit, hshape⟩ := consume_frame contents rest 0
      have hF : List.Forall₂ (FilledFrom (MCFragment.Data contents fixups :: frags)) taken
          (consume contents 0 rest).1 :=
        hshape.imp (fun _ _ h => filledFrom_of_sameShape _ _ _ h)
      have hlenF : (consume contents 0 rest).1.length = taken.length := hshape.length_eq.symm
      simp only [fragmentLoop, extractFragment_data contents fixups pre rest hne]
      by_cases hnil : (consume contents 0 rest).2 = []
      · refine ⟨taken, (consume contents 0 rest).1, [], ?_, hF, ?_, ?_, ?_⟩
        · rw [hsplit, hnil] 
        · simp [hnil]
        · simp [hnil]
        · simp [hnil]
      · have hlen : ¬ (pre.length + (consume contents 0 rest).1.length
            ≥ (pre ++ (consume contents 0 rest).1 ++ (consume contents 0 rest).2).length) := by
          have : 0 < (consume contents 0 rest).2.length := List.length_pos.mpr hnil
          simp only [List.length_append]; omega
        obtain ⟨taken2, filled2, remaining, hsplit2, hfilled2, hi, hc, ht⟩ :=
          ih (pre ++ (consume contents 0 rest).1) (consume contents 0 rest).2 hnil
        simp only [List.length_append] at hi hc ht
        refine ⟨taken ++ taken2, (consume contents 0 rest).1 ++ filled2, remaining, ?_, ?_, ?_,
          ?_, ?_⟩
        · rw [List.append_assoc, ← hsplit2]; exact hsplit
        · exact List.rel_append hF (hfilled2.imp (fun _ _ h => filledFrom_cons _ _ _ _ h))
        · simp only [Bool.false_eq_true, if_false, hlen]
          simpa [List.append_assoc] using hi
        · simp only [Bool.false_eq_true, if_false, hlen]
          simpa [Nat.add_assoc] using hc
        · simp only [Bool.false_eq_true, if_false, hlen]
          simpa using ht
    | Relaxable contents fixups =>
      cases rest with
      | nil => exact absurd rfl hne
      | cons x rest =>
        have hx : FilledFrom (MCFragment.Relaxable contents fixups :: frags) x
            { x with bytes := contents } :=
          ⟨rfl, rfl, Or.inr ⟨contents, fixups, List.mem_cons_self _ _, rfl⟩⟩
        simp only [fragmentLoop, extractFragment, getElem?_append_length, set_append_length]
        by_cases hnil : rest = []
        · subst hnil
          refine ⟨[x], [{ x with bytes := contents }], [], rfl,
            List.Forall₂.cons hx List.Forall₂.nil, ?_, ?_, ?_⟩ <;> simp
        · have hlen : ¬ (pre.length + 1
              ≥ (pre ++ { x with bytes := contents } :: rest).length) := by
            have : 0 < rest.length := List.length_pos.mpr hnil
            simp only [List.length_append, List.length_cons]; omega
          obtain ⟨taken2, filled2, remaining, hsplit2, hfilled2, hi, hc, ht⟩ :=
            ih (pre ++ [{ x with bytes := contents }]) rest hnil
          simp only [List.length_append, List.length_singleton, List.append_assoc,
            List.singleton_append] at hi hc ht
          refine ⟨x :: taken2, { x with bytes := contents } :: filled2, remaining, ?_, ?_, ?_,
            ?_, ?_⟩
          · rw [hsplit2]; rfl
          · exact List.Forall₂.cons hx (hfilled2.imp (fun _ _ h => filledFrom_cons _ _ _ _ h))
          · simp only [Bool.false_eq_true, if_false, hlen]
            simpa using hi
          · simp only [Bool.false_eq_true, if_false, hlen]
            simpa [Nat.add_assoc, Nat.add_comm 1] using hc
          · simp only [Bool.false_eq_true, if_false, hlen]
            simpa using ht

/-! ## `writeObject`: the missing section and the validation only mode -/

theorem writeObject_find_none (Layout : MCAsmLayout)
    (h : ∀ sec ∈ Layout.sectionOrder, sec.name ≠ ".text") :
    Layout.sectionOrder.find? (fun sec => sec.name == ".text") = none := by
  rw [List.find?_eq_none]
  intro sec hsec
  simpa using h sec hsec

theorem writeObject_find_some (Layout : MCAsmLayout)
    (h : ∃ sec ∈ Layout.sectionOrder, sec.name = ".text") :
    ∃ text_section, Layout.sectionOrder.find? (fun sec => sec.name == ".text")
      = some text_section := by
  cases hf : Layout.sectionOrder.find? (fun sec => sec.name == ".text") with
  | some text_section => exact ⟨text_section, rfl⟩
  | none =>
    rw [List.find?_eq_none] at hf
    obtain ⟨sec, hsec, hname⟩ := h
    exact absurd (by simpa using hname) (hf sec hsec)

theorem writeObject_extended_error (self : ObjectWriterWrapper) (Asm : MCAssembler)
    (Layout : MCAsmLayout) (text_section : MCSection)
    (hfind : Layout.sectionOrder.find? (fun sec => sec.name == ".text") = some text_section) :
    (writeObject self Asm Layout).2.extended_error = self.extended_error := by
  unfold writeObject
  rw [hfind]
  simp only
  split
  · rfl
  · split <;> rfl

theorem writeObject_errors (self : ObjectWriterWrapper) (Asm : MCAssembler)
    (Layout : MCAsmLayout) (text_section : MCSection)
    (hfind : Layout.sectionOrder.find? (fun sec => sec.name == ".text") = some text_section) :
    (writeObject self Asm Layout).2.errors = self.errors
      ++ (fragmentLoop self.triple Layout text_section.fragments self.instructions 0).errors := by
  unfold writeObject
  rw [hfind]
  simp only
  split
  · rfl
  · split <;> rfl

theorem fragmentLoop_none (triple : Triple) (Layout : MCAsmLayout) (frags : List MCFragment) :
    ∀ curr_insn, fragmentLoop triple Layout frags none curr_insn
      = ⟨validateFragments triple Layout frags, none, curr_insn, false⟩ := by
  induction frags with
  | nil => intro curr_insn; rfl
  | cons f frags ih => intro curr_insn; simp [fragmentLoop, validateFragments, ih]

/-- C14. Missing code section. When no section of the section order is named `.text`,
`writeObject` returns 0 and changes nothing but the extended error text, to which it appends
its message: no error is reported, the instruction list and the stream are as before. When
some section is named `.text`, `writeObject` leaves the extended error text unchanged. -/
theorem writeObject_missing_text_section (self : ObjectWriterWrapper) (Asm : MCAssembler)
    (Layout : MCAsmLayout) :
    ((∀ sec ∈ Layout.sectionOrder, sec.name ≠ ".text") →
        writeObject self Asm Layout = (some 0, { self with
          extended_error := self.extended_error ++ "[writeObject] Object has no .text section." })
        ∧ (writeObject self Asm Layout).1 = some 0
        ∧ (writeObject self Asm Layout).2.extended_error
          = self.extended_error ++ "[writeObject] Object has no .text section."
        ∧ (writeObject self Asm Layout).2.errors = self.errors
        ∧ (writeObject self Asm Layout).2.instructions = self.instructions
        ∧ (writeObject self Asm Layout).2.stream = self.stream)
      ∧ ((∃ sec ∈ Layout.sectionOrder, sec.name = ".text") →
        (writeObject self Asm Layout).2.extended_error = self.extended_error) := by
  constructor
  · intro h
    have hnone := writeObject_find_none Layout h
    have key : writeObject self Asm Layout = (some 0, { self with
        extended_error := self.extended_error ++ "[writeObject] Object has no .text section." }) := by
      unfold writeObject
      rw [hnone]
    refine ⟨key, ?_, ?_, ?_, ?_, ?_⟩ <;> rw [key]
  · intro h
    obtain ⟨text_section, hfind⟩ := writeObject_find_some Layout h
    exact writeObject_extended_error self Asm Layout text_section hfind

/-- Witness of C14: a layout with only a `.data` section, and a layout with a `.text`
section, for a writer whose extended error text is `old`. -/
theorem writeObject_missing_text_section_witness :
    ((writeObject
          { sampleWriter (some sampleInstructions.flatten) with extended_error := "old" }
          sampleAssembler ⟨[⟨".data", sampleFragments⟩], fun _ => 0⟩).1 = some 0
      ∧ (writeObject
          { sampleWriter (some sampleInstructions.flatten) with extended_error := "old" }
          sampleAssembler ⟨[⟨".data", sampleFragments⟩], fun _ => 0⟩).2.extended_error
        = "old" ++ "[writeObject] Object has no .text section."
      ∧ (writeObject
          { sampleWriter (some sampleInstructions.flatten) with extended_error := "old" }
          sampleAssembler ⟨[⟨".data", sampleFragments⟩], fun _ => 0⟩).2.instructions
        = some sampleInstructions.flatten)
    ∧ (writeObject
          { sampleWriter (some sampleInstructions.flatten) with extended_error := "old" }
          sampleAssembler (sampleLayout sampleFragments)).2.extended_error = "old" :=
  ⟨by
      obtain ⟨_, h1, h2, _, h4, _⟩ := (writeObject_missing_text_section
        { sampleWriter (some sampleInstructions.flatten) with extended_error := "old" }
        sampleAssembler ⟨[⟨".data", sampleFragments⟩], fun _ => 0⟩).1 (by decide)
      exact ⟨h1, h2, h4⟩,
    (writeObject_missing_text_section
      { sampleWriter (some sampleInstructions.flatten) with extended_error := "old" }
      sampleAssembler (sampleLayout sampleFragments)).2 ⟨⟨".text", sampleFragments⟩, by
        simp [sampleLayout], rfl⟩⟩

/-- C16. Validation only mode. When the instruction list is a null pointer and the layout
has a `.text` section, `writeObject` reports exactly the errors of validating every fragment
of that section, in emission order, after the errors reported before; there is still no
instruction list afterwards, and the call returns the count of the output step. -/
theorem writeObject_validation_only (self : ObjectWriterWrapper) (Asm : MCAssembler)
    (Layout : MCAsmLayout) (text_section : MCSection)
    (hfind : Layout.sectionOrder.find? (fun sec => sec.name == ".text") = some text_section)
    (hnull : self.instructions = none) :
    (writeObject self Asm Layout).2.errors
        = self.errors ++ validateFragments self.triple Layout text_section.fragments
      ∧ (writeObject self Asm Layout).2.instructions = none
      ∧ (writeObject self Asm Layout).1 =
        some (if self.write_text_section_only then (Asm.writeSectionData text_section).length
          else self.inner_object_writer.writeObjectResult) := by
  have hloop := fragmentLoop_none self.triple Layout text_section.fragments 0
  refine ⟨?_, ?_, ?_⟩
  · rw [writeObject_errors self Asm Layout text_section hfind, hnull, hloop]
  · rw [writeObject_instructions self Asm Layout text_section hfind, hnull, hloop]
  · exact writeObject_returns self Asm Layout text_section hfind (by rw [hnull, hloop])

/-- Witness of C16: without an instruction list both failing fixups of the sample section
are reported, in fragment order. -/
theorem writeObject_validation_only_witness :
    ((sampleLayout sampleFailingFragments).sectionOrder.find? (fun sec => sec.name == ".text")
        = some ⟨".text", sampleFailingFragments⟩
      ∧ (sampleWriter none).instructions = none)
    ∧ (writeObject (sampleWriter none) sampleAssembler
          (sampleLayout sampleFailingFragments)).2.errors
        = (sampleWriter none).errors
          ++ validateFragments (sampleWriter none).triple (sampleLayout sampleFailingFragments)
            sampleFailingFragments
    ∧ validateFragments (sampleWriter none).triple (sampleLayout sampleFailingFragments)
          sampleFailingFragments
        = [⟨7, "misaligned label address (reported by nyxstone)"⟩,
            ⟨7, "misaligned label address (reported by nyxstone)"⟩]
    ∧ (writeObject (sampleWriter none) sampleAssembler
          (sampleLayout sampleFailingFragments)).2.instructions = none :=
  ⟨⟨rfl, rfl⟩,
    (writeObject_validation_only (sampleWriter none) sampleAssembler
      (sampleLayout sampleFailingFragments) ⟨".text", sampleFailingFragments⟩ rfl rfl).1,
    by decide,
    (writeObject_validation_only (sampleWriter none) sampleAssembler
      (sampleLayout sampleFailingFragments) ⟨".text", sampleFailingFragments⟩ rfl rfl).2.1⟩

/-! ## `writeObject`: what the early exit of the fragment loop skips -/

/-- C15. The claim fails on the code. For the Thumb section of `nop`, a data word and
`bne label`, with the two instructions supplied, the data fragment fills both instructions,
the cursor reaches the length of the list and the fragment loop is left: the relaxable
fragment is never validated and `writeObject` reports no error, while validating every
fragment of the section reports the misaligned branch, and so does the same call without an
instruction list. The same happens for the sample section when only its first instruction
is supplied. -/
theorem writeObject_skips_validation :
    (writeObject (sampleWriter (some sampleInlineDataInstructions)) sampleAssembler
        (sampleLayout sampleInlineDataFragments)).2.errors = []
    ∧ validateFragments ⟨true, false⟩ (sampleLayout sampleInlineDataFragments)
        sampleInlineDataFragments
      = [⟨7, "misaligned label address (reported by nyxstone)"⟩]
    ∧ (writeObject (sampleWriter none) sampleAssembler
        (sampleLayout sampleInlineDataFragments)).2.errors
      = [⟨7, "misaligned label address (reported by nyxstone)"⟩]
    ∧ (writeObject (sampleWriter (some [⟨0x1000, "adr r0, label", [0, 0]⟩])) sampleAssembler
        (sampleLayout sampleFailingFragments)).2.errors
      = [⟨7, "misaligned label address (reported by nyxstone)"⟩]
    ∧ validateFragments ⟨true, false⟩ (sampleLayout sampleFailingFragments)
        sampleFailingFragments
      = [⟨7, "misaligned label address (reported by nyxstone)"⟩,
          ⟨7, "misaligned label address (reported by nyxstone)"⟩] := by
  decide

/-- C17. The claim fails on the code. With an empty instruction list and a `.text` section
whose first fragment is a data fragment (here the single empty data fragment of an empty
section) or a relaxable fragment, `instructions->at(0)` is evaluated before any comparison of
the cursor with the length of the list: `std::out_of_range` is thrown and `writeObject` does
not return. With a first fragment of another kind the loop is left normally. -/
theorem writeObject_empty_list_throws :
    (writeObject (sampleWriter (some [])) sampleAssembler
        (sampleLayout [MCFragment.Data [] []])).1 = none
    ∧ (writeObject (sampleWriter (some [])) sampleAssembler
        (sampleLayout [MCFragment.Relaxable [0x00, 0xbf] []])).1 = none
    ∧ (writeObject (sampleWriter (some [])) sampleAssembler
        (sampleLayout [MCFragment.Other 0, MCFragment.Data [] []])).1 = some 0 := by
  decide

/-! ## `writeObject`: the frame of the extraction -/

theorem sameShape_refl (insn : Instruction) : SameShape insn insn :=
  ⟨rfl, rfl, rfl⟩

theorem forall₂_sameShape_refl (l : List Instruction) : List.Forall₂ SameShape l l := by
  induction l with
  | nil => exact List.Forall₂.nil
  | cons x l ih => exact List.Forall₂.cons (sameShape_refl x) ih

theorem forall₂_filledFrom_refl (frags : List MCFragment) (l : List Instruction) :
    List.Forall₂ (FilledFrom frags) l l :=
  (forall₂_sameShape_refl l).imp (fun _ _ h => filledFrom_of_sameShape frags _ _ h)

theorem forall₂_filledFrom_metadata (frags : List MCFragment) (l₁ l₂ : List Instruction)
    (h : List.Forall₂ (FilledFrom frags) l₁ l₂) :
    l₂.map (fun insn => (insn.address, insn.assembly))
      = l₁.map (fun insn => (insn.address, insn.assembly)) := by
  induction h with
  | nil => rfl
  | cons hab _ ih =>
    simp only [List.map_cons, ih, hab.1, hab.2.1]

theorem extractFragment_data_sameShape (contents : List Byte) (fixups : List MCFixup)
    (instructions : List Instruction) (curr_insn : Nat) :
    List.Forall₂ SameShape instructions
      (extractFragment (MCFragment.Data contents fixups) instructions curr_insn).instructions := by
  by_cases hcur : curr_insn < instructions.length
  · have hsplit : instructions = instructions.take curr_insn ++ instructions.drop curr_insn :=
      (List.take_append_drop curr_insn instructions).symm
    have hlen : (instructions.take curr_insn).length = curr_insn := by
      rw [List.length_take]; omega
    have hne : instructions.drop curr_insn ≠ [] := by
      intro h
      have := congrArg List.length h
      simp only [List.length_drop, List.length_nil] at this
      omega
    have he := extractFragment_data contents fixups (instructions.take curr_insn)
      (instructions.drop curr_insn) hne
    rw [← hsplit, hlen] at he
    rw [he]
    obtain ⟨taken, htaken, hshape⟩ := consume_frame contents (instructions.drop curr_insn) 0
    have hall : List.Forall₂ SameShape
        (instructions.take curr_insn ++ taken ++ (consume contents 0 (instructions.drop curr_insn)).2)
        (instructions.take curr_insn ++ (consume contents 0 (instructions.drop curr_insn)).1
          ++ (consume contents 0 (instructions.drop curr_insn)).2) :=
      List.rel_append (List.rel_append (forall₂_sameShape_refl _) hshape)
        (forall₂_sameShape_refl _)
    rw [List.append_assoc, ← htaken, ← hsplit] at hall
    exact hall
  · have hnone : instructions[curr_insn]? = none :=
      List.getElem?_eq_none (Nat.le_of_not_lt hcur)
    have he : extractFragment (MCFragment.Data contents fixups) instructions curr_insn
        = ⟨instructions, curr_insn, true⟩ := by
      unfold extractFragment dataLoop
      rw [hnone]
    rw [he]
    exact forall₂_sameShape_refl _

/-- C20. Extraction frame. For every fragment sequence of the `.text` section and every
supplied instruction list that is not empty, `writeObject` returns normally and the
instruction list afterwards has the same length, with every instruction at its place: same
address and assembly text, and bytes of the same length unless they are the contents of a
relaxable fragment of the section. Every instruction at an index from the final cursor of
the fragment loop on is unchanged. The extraction step of a data fragment alone keeps the
stored byte length of every instruction of every list. -/
theorem writeObject_extraction_frame (self : ObjectWriterWrapper) (Asm : MCAssembler)
    (Layout : MCAsmLayout) (text_section : MCSection) (insns : List Instruction)
    (hfind : Layout.sectionOrder.find? (fun sec => sec.name == ".text") = some text_section)
    (hinsns : self.instructions = some insns)
    (hne : insns ≠ []) :
    ∃ out, (writeObject self Asm Layout).2.instructions = some out
      ∧ (writeObject self Asm Layout).1.isSome = true
      ∧ out.length = insns.length
      ∧ out.map (fun insn => (insn.address, insn.assembly))
        = insns.map (fun insn => (insn.address, insn.assembly))
      ∧ List.Forall₂ (FilledFrom text_section.fragments) insns out
      ∧ (fragmentLoop self.triple Layout text_section.fragments (some insns) 0).curr_insn
        ≤ insns.length
      ∧ (∀ i, (fragmentLoop self.triple Layout text_section.fragments (some insns) 0).curr_insn
          ≤ i → out[i]? = insns[i]?)
      ∧ (∀ contents fixups (l : List Instruction) curr_insn,
          List.Forall₂ SameShape l
            (extractFragment (MCFragment.Data contents fixups) l curr_insn).instructions) := by
  obtain ⟨taken, filled, remaining, hsplit, hfilled, hi, hc, ht⟩ :=
    fragmentLoop_frame self.triple Layout text_section.fragments [] insns hne
  simp only [List.nil_append, List.length_nil, Nat.zero_add] at hi hc ht
  have hlen : filled.length = taken.length := hfilled.length_eq.symm
  have hall : List.Forall₂ (FilledFrom text_section.fragments) insns (filled ++ remaining) := by
    rw [hsplit]
    exact List.rel_append hfilled (forall₂_filledFrom_refl _ _)
  refine ⟨filled ++ remaining, ?_, ?_, hall.length_eq.symm,
    forall₂_filledFrom_metadata _ _ _ hall, hall, ?_, ?_,
    fun contents fixups l curr_insn => extractFragment_data_sameShape contents fixups l curr_insn⟩
  · rw [writeObject_instructions self Asm Layout text_section hfind, hinsns]
    exact hi
  · rw [writeObject_returns self Asm Layout text_section hfind (by rw [hinsns]; exact ht)]
    rfl
  · rw [hc, hsplit, List.length_append]
    omega
  · intro i hle
    rw [hc] at hle
    rw [hsplit, List.getElem?_append_right hle,
      List.getElem?_append_right (by rw [← hlen]; exact hle), hlen]

/-- Witness of C20: three instructions, of which the data fragment fills the first two and
the fragment loop then ends for want of fragments; the third instruction is unchanged. -/
theorem writeObject_extraction_frame_witness :
    ((sampleLayout [MCFragment.Data [1, 2, 3] []]).sectionOrder.find?
          (fun sec => sec.name == ".text")
        = some ⟨".text", [MCFragment.Data [1, 2, 3] []]⟩
      ∧ ([⟨0, "a", [0, 0]⟩, ⟨2, "b", [0]⟩, ⟨3, "c", [9, 9, 9]⟩] : List Instruction) ≠ [])
    ∧ (writeObject (sampleWriter (some [⟨0, "a", [0, 0]⟩, ⟨2, "b", [0]⟩, ⟨3, "c", [9, 9, 9]⟩]))
          sampleAssembler (sampleLayout [MCFragment.Data [1, 2, 3] []])).2.instructions
        = some [⟨0, "a", [1, 2]⟩, ⟨2, "b", [3]⟩, ⟨3, "c", [9, 9, 9]⟩]
    ∧ ∃ out, (writeObject
          (sampleWriter (some [⟨0, "a", [0, 0]⟩, ⟨2, "b", [0]⟩, ⟨3, "c", [9, 9, 9]⟩]))
          sampleAssembler (sampleLayout [MCFragment.Data [1, 2, 3] []])).2.instructions
        = some out
      ∧ out.length = 3
      ∧ List.Forall₂ (FilledFrom [MCFragment.Data [1, 2, 3] []])
          [⟨0, "a", [0, 0]⟩, ⟨2, "b", [0]⟩, ⟨3, "c", [9, 9, 9]⟩] out :=
  ⟨⟨rfl, by decide⟩, by decide, by
    obtain ⟨out, h1, _, h3, _, h5, _⟩ := writeObject_extraction_frame
      (sampleWriter (some [⟨0, "a", [0, 0]⟩, ⟨2, "b", [0]⟩, ⟨3, "c", [9, 9, 9]⟩]))
      sampleAssembler (sampleLayout [MCFragment.Data [1, 2, 3] []])
      ⟨".text", [MCFragment.Data [1, 2, 3] []]⟩
      [⟨0, "a", [0, 0]⟩, ⟨2, "b", [0]⟩, ⟨3, "c", [9, 9, 9]⟩] rfl rfl (by decide)
    exact ⟨out, h1, h3, h5⟩⟩

end Nyxstone
